import Mathlib

/-!
Verification of the diary subsystem (`src/daily_mcp/tools/diary.py`).

The embedding works over `Str := List Char`.  Python strings are modelled as
character lists; the regular expressions of the source are modelled by
explicit scanners that reproduce their observable behaviour on the file
format in question.  `\w` (Unicode word character) is modelled as ASCII
alphanumeric or underscore, together with the CJK range `一-鿿`
that the source patterns name explicitly; whitespace (`\s`, `str.strip`)
is modelled as the six ASCII whitespace characters.  Fallible Python code
(statements that can raise) is modelled with `Option`: `none` is an
uncaught exception.
-/

namespace Diary

abbrev Str := List Char

/-- The ASCII whitespace characters stripped by `str.strip()` and matched
by the regex class `\s`: space and `\t\n\v\f\r` (code points 9-13). -/
def isSpaceChar (c : Char) : Bool :=
  c.toNat = 32 || (9 ≤ c.toNat && c.toNat ≤ 13)

/-- Characters matched by the tag classes `[\w一-鿿-]` of the source
patterns: ASCII alphanumerics, underscore, hyphen, and the CJK range the
patterns name explicitly. -/
def isTagChar (c : Char) : Bool :=
  (48 ≤ c.toNat && c.toNat ≤ 57) || (65 ≤ c.toNat && c.toNat ≤ 90) ||
    (97 ≤ c.toNat && c.toNat ≤ 122) || c.toNat = 95 || c.toNat = 45 ||
    (0x4e00 ≤ c.toNat && c.toNat ≤ 0x9fff)

/-- ASCII decimal digit (`\d` of the datetime format regexes). -/
def isDigitCh (c : Char) : Bool := 48 ≤ c.toNat && c.toNat ≤ 57

def lstrip (s : Str) : Str := s.dropWhile isSpaceChar

def rstrip (s : Str) : Str := (s.reverse.dropWhile isSpaceChar).reverse

/-- Python `str.strip()`. -/
def strip (s : Str) : Str := rstrip (lstrip s)

/-- Python `str.split(sep)` for a one-character separator (used with
`"\n"`, `"-"`, `"/"` and `" "`). -/
def splitOnChar (sep : Char) : Str → List Str
  | [] => [[]]
  | c :: rest =>
    if c = sep then [] :: splitOnChar sep rest
    else
      match splitOnChar sep rest with
      | [] => [[c]]
      | l :: ls => (c :: l) :: ls

def splitNL : Str → List Str := splitOnChar '\n'

def joinNL (ls : List Str) : Str := List.intercalate ['\n'] ls

/-- Python `pat in s` (substring containment). -/
def hasSub (pat : Str) : Str → Bool
  | [] => pat.isEmpty
  | s@(_ :: rest) => pat.isPrefixOf s || hasSub pat rest

theorem dropWhile_len_le (p : Char → Bool) (l : List Char) :
    (l.dropWhile p).length ≤ l.length := by
  induction l with
  | nil => simp [List.dropWhile]
  | cons c rest ih =>
    by_cases h : p c <;> simp [List.dropWhile, h] <;> omega

/-- `re.findall(r"#([\w一-鿿-]+)", s)`: scan for `#` followed by a
nonempty run of tag characters; yield the run and resume after it. -/
def findTags : Str → List Str
  | [] => []
  | c :: rest =>
    if c = '#' then
      if (rest.takeWhile isTagChar).isEmpty then findTags rest
      else rest.takeWhile isTagChar :: findTags (rest.dropWhile isTagChar)
    else findTags rest
termination_by s => s.length
decreasing_by
  · simp only [List.length_cons]; omega
  · have := dropWhile_len_le isTagChar rest
    simp only [List.length_cons]; omega
  · simp only [List.length_cons]; omega

/-- The length of the match of `\s*#[\w一-鿿-]+` anchored at the start
of `s`, if any: the maximal whitespace run, a `#`, and a nonempty maximal
tag-character run (backtracking the greedy `\s*` never helps, since no
whitespace character is `#`). -/
def tagMatchLen (s : Str) : Option Nat :=
  let rest := s.dropWhile isSpaceChar
  if rest.head? = some '#' then
    if (rest.tail.takeWhile isTagChar).isEmpty then none
    else some ((s.takeWhile isSpaceChar).length + 1 +
      (rest.tail.takeWhile isTagChar).length)
  else none

theorem tagMatchLen_pos {s : Str} (h : (tagMatchLen s).isSome) :
    1 ≤ (tagMatchLen s).get h := by
  unfold tagMatchLen at *
  by_cases h1 : (s.dropWhile isSpaceChar).head? = some '#'
  · simp only [if_pos h1] at *
    by_cases h2 : ((s.dropWhile isSpaceChar).tail.takeWhile isTagChar).isEmpty
    · simp [h2] at h
    · simp [h2]
      omega
  · simp [h1] at h

/-- `re.sub(r"\s*#[\w一-鿿-]+", "", s)`: scan left to right; where a
match starts, delete it and resume after it, otherwise keep the character
and advance by one. -/
def subTags : Str → Str
  | [] => []
  | c :: rest =>
    if hk : (tagMatchLen (c :: rest)).isSome then
      subTags ((c :: rest).drop ((tagMatchLen (c :: rest)).get hk))
    else c :: subTags rest
termination_by s => s.length
decreasing_by
  · have := tagMatchLen_pos hk
    simp only [List.length_drop, List.length_cons]
    omega
  · simp only [List.length_cons]; omega

/-- `re.findall(r"[\w一-鿿-]+", s)`: the maximal nonempty runs of
tag characters (used on the frontmatter tags value). -/
def wordRuns : Str → List Str
  | [] => []
  | c :: rest =>
    if isTagChar c then
      (c :: rest.takeWhile isTagChar) :: wordRuns (rest.dropWhile isTagChar)
    else wordRuns rest
termination_by s => s.length
decreasing_by
  · have := dropWhile_len_le isTagChar rest
    simp only [List.length_cons]; omega
  · simp only [List.length_cons]; omega

/-!
Entry parsing (`_parse_entries`).  The source splits the body with
`re.split(r"^## (\d{2}:\d{2})(?::(\d{2}))?\s*$", body, flags=re.MULTILINE)`.
Because the pattern is anchored with `^`/`$`, a match is exactly a line
consisting of the header followed by whitespace; the split is modelled
line by line.
-/

/-- Match one line against `## (\d{2}:\d{2})(?::(\d{2}))?\s*$`; on success
return `time_str` as the source builds it (`hm:ss` if the seconds group
matched, else `hm:00`). -/
def headerTime (l : Str) : Option Str :=
  match l with
  | '#' :: '#' :: ' ' :: h1 :: h2 :: ':' :: m1 :: m2 :: rest =>
    if isDigitCh h1 && isDigitCh h2 && isDigitCh m1 && isDigitCh m2 then
      match rest with
      | ':' :: s1 :: s2 :: rest2 =>
        if isDigitCh s1 && isDigitCh s2 && rest2.all isSpaceChar then
          some [h1, h2, ':', m1, m2, ':', s1, s2]
        else if rest.all isSpaceChar then
          some [h1, h2, ':', m1, m2, ':', '0', '0']
        else none
      | _ =>
        if rest.all isSpaceChar then
          some [h1, h2, ':', m1, m2, ':', '0', '0']
        else none
    else none
  | _ => none

/-- One parsed diary entry: the dict
`{"datetime": ..., "content": ..., "tags": ...}` built by `_parse_entries`. -/
structure Entry where
  dt : Str
  content : Str
  tags : List Str
deriving Repr, DecidableEq

/-- Build the entry for one section (`time_str`, content lines up to the
next header).  `none` models the `continue` on an empty content block. -/
def mkEntry (fileDate timeStr : Str) (contentLines : List Str) : Option Entry :=
  let block := strip (joinNL contentLines)
  if block.isEmpty then none
  else some
    { dt := fileDate ++ ' ' :: timeStr
      content := strip (subTags block)
      tags := findTags block }

/-- Accumulate sections: `t` is the time of the currently open section and
`acc` its content lines so far (reversed). -/
def collectSections : List Str → Str → List Str → List (Str × List Str)
  | [], t, acc => [(t, acc.reverse)]
  | l :: rest, t, acc =>
    match headerTime l with
    | some t2 => (t, acc.reverse) :: collectSections rest t2 []
    | none => collectSections rest t (l :: acc)

/-- The sections of a body: text before the first header line is
discarded, then each header opens a section. -/
def sectionsOf : List Str → List (Str × List Str)
  | [] => []
  | l :: rest =>
    match headerTime l with
    | some t => collectSections rest t []
    | none => sectionsOf rest

/-- `_parse_entries(body, file_date)`. -/
def parseEntries (body : Str) (fileDate : Str) : List Entry :=
  (sectionsOf (splitNL body)).filterMap fun p => mkEntry fileDate p.1 p.2

/-!
Frontmatter codec (`_parse_frontmatter`, `_build_frontmatter`).
-/

/-- Split `s` at the first occurrence of `sep` (`str.split(sep, 1)` when it
finds a separator); `none` if `sep` does not occur. -/
def splitFirst (sep : Str) : Str → Option (Str × Str)
  | [] => if sep.isEmpty then some ([], []) else none
  | s@(c :: rest) =>
    if sep.isPrefixOf s then some ([], s.drop sep.length)
    else
      match splitFirst sep rest with
      | some (a, b) => some (c :: a, b)
      | none => none

/-- A frontmatter value: the `tags` key is parsed into a list, everything
else stays a string. -/
inductive FMVal where
  | str (s : Str)
  | tagList (ts : List Str)
deriving Repr, DecidableEq

/-- Python dict insertion: overriding a key keeps its position. -/
def dictInsert (k : Str) (v : FMVal) : List (Str × FMVal) → List (Str × FMVal)
  | [] => [(k, v)]
  | (k2, v2) :: rest =>
    if k2 = k then (k, v) :: rest else (k2, v2) :: dictInsert k v rest

def dictFind (d : List (Str × FMVal)) (k : Str) : Option FMVal :=
  (d.find? fun kv => kv.1 = k).map (·.2)

/-- Process one `key: value` line of the frontmatter block. -/
def fmLine (d : List (Str × FMVal)) (line : Str) : List (Str × FMVal) :=
  if line.contains ':' then
    let key := strip (line.takeWhile (· ≠ ':'))
    let value := strip ((line.dropWhile (· ≠ ':')).drop 1)
    if key = "tags".toList && value.head? = some '[' then
      dictInsert key (.tagList (wordRuns value)) d
    else
      dictInsert key (.str value) d
  else d

/-- `_parse_frontmatter(content)`: returns `(frontmatter, body)`. -/
def parseFrontmatter (content : Str) :
    List (Str × FMVal) × Str :=
  if ¬ ("---".toList.isPrefixOf content) then ([], content)
  else
    match splitFirst "---".toList content with
    | none => ([], content)
    | some (_, r1) =>
      match splitFirst "---".toList r1 with
      | none => ([], content)
      | some (p1, p2) =>
        let fmStr := strip p1
        let body := strip p2
        ((splitNL fmStr).foldl fmLine [], body)

def joinCommaSpace (ts : List Str) : Str := List.intercalate (", ".toList) ts

/-- The text between the two `---` delimiters of a built frontmatter. -/
def fmInner (nowStr date : Str) (tags : List Str) : Str :=
  "\ndate: ".toList ++ date ++ "\nmodification_date: ".toList ++ nowStr ++
    "\ntags: [".toList ++ joinCommaSpace tags ++ "]\n".toList

/-- `_build_frontmatter(date, tags)` with the formatted `datetime.now()`
passed in as `nowStr`. -/
def buildFrontmatter (nowStr date : Str) (tags : List Str) : Str :=
  "---".toList ++ fmInner nowStr date tags ++ "---".toList

/-!
Datetimes.  A naive `datetime.datetime` is its six fields; comparison is
lexicographic on the field tuple, which is how Python compares datetimes.
`strptime` for the two formats used by the source (`%Y-%m-%d %H:%M:%S` and
`%Y-%m-%d`) is modelled after CPython's `_strptime` regexes: `%Y` is
exactly four digits, `%m`/`%d`/`%H`/`%M`/`%S` are one or two digits in
range (backtracking never rescues a two-digit run whose value is out of
range, because the following separator is not a digit), and the
constructed date is validated against the calendar.
-/

structure DateTime where
  year : Nat
  month : Nat
  day : Nat
  hour : Nat
  minute : Nat
  second : Nat
deriving Repr, DecidableEq

def natListLE : List Nat → List Nat → Bool
  | [], _ => true
  | _ :: _, [] => false
  | a :: as, b :: bs =>
    if a < b then true else if b < a then false else natListLE as bs

def dtTuple (a : DateTime) : List Nat :=
  [a.year, a.month, a.day, a.hour, a.minute, a.second]

/-- Python `datetime <= datetime`. -/
def dtLE (a b : DateTime) : Bool := natListLE (dtTuple a) (dtTuple b)

def isLeap (y : Nat) : Bool := (y % 4 = 0 && y % 100 ≠ 0) || y % 400 = 0

def daysInMonth (y m : Nat) : Nat :=
  match m with
  | 2 => if isLeap y then 29 else 28
  | 4 => 30
  | 6 => 30
  | 9 => 30
  | 11 => 30
  | _ => 31

def validDate (y m d : Nat) : Bool :=
  1 ≤ y && y ≤ 9999 && 1 ≤ m && m ≤ 12 && 1 ≤ d && d ≤ daysInMonth y m

def natOfDigits (s : Str) : Nat := s.foldl (fun n c => n * 10 + (c.toNat - 48)) 0

/-- Parse the `%Y-%m-%d` part; returns the fields and the unconsumed rest.
Range checks on the month/day runs reproduce the `_strptime` regexes. -/
def parseYMD (s : Str) : Option ((Nat × Nat × Nat) × Str) :=
  let ys := s.takeWhile isDigitCh
  if ys.length ≠ 4 then none
  else if (s.drop 4).head? ≠ some '-' then none
  else
    let r1 := (s.drop 4).tail
    let ms := r1.takeWhile isDigitCh
    if ms.length = 0 || 2 < ms.length then none
    else
      let m := natOfDigits ms
      if m < 1 || 12 < m then none
      else if (r1.drop ms.length).head? ≠ some '-' then none
      else
        let r2 := (r1.drop ms.length).tail
        let ds := r2.takeWhile isDigitCh
        if ds.length = 0 || 2 < ds.length then none
        else
          let d := natOfDigits ds
          if d < 1 || 31 < d then none
          else some ((natOfDigits ys, m, d), r2.drop ds.length)

/-- Parse the `%H:%M:%S` part; returns the fields and the unconsumed rest. -/
def parseHMS (s : Str) : Option ((Nat × Nat × Nat) × Str) :=
  let hs := s.takeWhile isDigitCh
  if hs.length = 0 || 2 < hs.length then none
  else
    let h := natOfDigits hs
    if 23 < h then none
    else if (s.drop hs.length).head? ≠ some ':' then none
    else
      let r1 := (s.drop hs.length).tail
      let ms := r1.takeWhile isDigitCh
      if ms.length = 0 || 2 < ms.length then none
      else
        let mi := natOfDigits ms
        if 59 < mi then none
        else if (r1.drop ms.length).head? ≠ some ':' then none
        else
          let r2 := (r1.drop ms.length).tail
          let ss := r2.takeWhile isDigitCh
          if ss.length = 0 || 2 < ss.length then none
          else
            let sec := natOfDigits ss
            if 59 < sec then none
            else some ((h, mi, sec), r2.drop ss.length)

/-- `datetime.strptime(s, "%Y-%m-%d %H:%M:%S")`; `none` models `ValueError`.
The whole string must be consumed (else "unconverted data remains"). -/
def strptimeFull (s : Str) : Option DateTime :=
  match parseYMD s with
  | some ((y, m, d), rest) =>
    if rest.head? ≠ some ' ' then none
    else
      match parseHMS rest.tail with
      | some ((h, mi, sec), r2) =>
        if r2.isEmpty then
          if validDate y m d then some ⟨y, m, d, h, mi, sec⟩ else none
        else none
      | none => none
  | none => none

/-- `datetime.strptime(s, "%Y-%m-%d")`; missing fields default to 0. -/
def strptimeDate (s : Str) : Option DateTime :=
  match parseYMD s with
  | some ((y, m, d), rest) =>
    if rest.isEmpty then
      if validDate y m d then some ⟨y, m, d, 0, 0, 0⟩ else none
    else none
  | none => none

def digitCh (d : Nat) : Char := Char.ofNat (48 + d % 10)

/-- Zero-padded two-digit decimal, as `strftime` renders the field values a
`datetime` can hold (`%m`, `%d`, `%H`, `%M`, `%S` are all at most 99). -/
def pad2 (n : Nat) : Str := [digitCh (n / 10), digitCh n]

/-- Zero-padded four-digit decimal (`%Y`; a `datetime` year is 1..9999). -/
def pad4 (n : Nat) : Str :=
  [digitCh (n / 1000), digitCh (n / 100), digitCh (n / 10), digitCh n]

/-- `dt.strftime("%Y-%m-%d")`. -/
def formatDate (dt : DateTime) : Str :=
  pad4 dt.year ++ '-' :: pad2 dt.month ++ '-' :: pad2 dt.day

/-- `dt.strftime("%H:%M")`. -/
def formatHM (dt : DateTime) : Str := pad2 dt.hour ++ ':' :: pad2 dt.minute

/-- `dt.strftime("%Y-%m-%d %H:%M:%S")`. -/
def formatFull (dt : DateTime) : Str :=
  formatDate dt ++ ' ' :: formatHM dt ++ ':' :: pad2 dt.second

/-- `date.toordinal()`: proleptic Gregorian day count, day 1 = 0001-01-01. -/
def daysBeforeYear (y : Nat) : Nat :=
  (y - 1) * 365 + (y - 1) / 4 - (y - 1) / 100 + (y - 1) / 400

def daysBeforeMonth (y m : Nat) : Nat :=
  (List.range' 1 (m - 1)).foldl (fun a k => a + daysInMonth y k) 0

def toOrdinal (dt : DateTime) : Nat :=
  daysBeforeYear dt.year + daysBeforeMonth dt.year dt.month + dt.day

/-- CPython `_ord2ymd`. -/
def ord2ymd (ordinal : Nat) : Nat × Nat × Nat :=
  let n0 := ordinal - 1
  let n400 := n0 / 146097
  let n1 := n0 % 146097
  let n100 := n1 / 36524
  let n2 := n1 % 36524
  let n4 := n2 / 1461
  let n3 := n2 % 1461
  let nY := n3 / 365
  let n := n3 % 365
  let year := n400 * 400 + 1 + n100 * 100 + n4 * 4 + nY
  if nY = 4 || n100 = 4 then (year - 1, 12, 31)
  else
    let month := (n + 50) / 32
    let preceding := daysBeforeMonth year month
    if n < preceding then
      (year, month - 1, n - daysBeforeMonth year (month - 1) + 1)
    else
      (year, month, n - preceding + 1)

/-- `dt - timedelta(days=k)` for a naive datetime: shift the date part by
`k` days, keep the time of day. -/
def subDays (dt : DateTime) (k : Nat) : DateTime :=
  let p := ord2ymd (toOrdinal dt - k)
  ⟨p.1, p.2.1, p.2.2, dt.hour, dt.minute, dt.second⟩

/-!
String ordering (Python compares strings lexicographically by code point)
and `sorted(set(...))`.
-/

def strLt : Str → Str → Bool
  | [], [] => false
  | [], _ :: _ => true
  | _ :: _, [] => false
  | a :: as, b :: bs =>
    if a < b then true else if b < a then false else strLt as bs

def strLe (a b : Str) : Bool := ! strLt b a

def insertStr (x : Str) : List Str → List Str
  | [] => [x]
  | y :: ys => if strLt x y then x :: y :: ys else y :: insertStr x ys

/-- Insertion sort by code-point order; on duplicate-free input this is the
unique sorted arrangement, hence Python's `sorted`. -/
def sortStrs (l : List Str) : List Str := l.foldr insertStr []

/-- Set formation: keep one copy of each element (order irrelevant because
the result is sorted afterwards). -/
def dedupStrs : List Str → List Str
  | [] => []
  | x :: xs =>
    let r := dedupStrs xs
    if r.contains x then r else x :: r

/-- Python `sorted(set(l))`. -/
def sortedSet (l : List Str) : List Str := sortStrs (dedupStrs l)

/-!
Filesystem model: an association list from full path strings to file
contents.  Paths are built exactly as the source builds them
(`diary_dir / year / month / f"{date}.md"`).  `mkdir` is a no-op.
-/

abbrev FS := List (Str × Str)

def fsRead (fs : FS) (p : Str) : Option Str :=
  (fs.find? fun kv => kv.1 = p).map (·.2)

def fsWrite (fs : FS) (p c : Str) : FS :=
  if (fs.find? fun kv => kv.1 = p).isSome then
    fs.map fun kv => if kv.1 = p then (p, c) else kv
  else fs ++ [(p, c)]

/-- `_get_diary_file`: `year, month, _ = date.split("-")` raises
`ValueError` (modelled as `none`) unless the split has exactly three
parts. -/
def getDiaryFile (diaryDir date : Str) : Option Str :=
  match splitOnChar '-' date with
  | [year, month, _] =>
    some (diaryDir ++ '/' :: year ++ '/' :: month ++ '/' :: date ++ ".md".toList)
  | _ => none

/-- `_load_diary`: `some []` for a missing file, `none` for a crash. -/
def loadDiary (fs : FS) (diaryDir date : Str) : Option (List Entry) :=
  match getDiaryFile diaryDir date with
  | none => none
  | some p =>
    match fsRead fs p with
    | none => some []
    | some content => some (parseEntries (parseFrontmatter content).2 date)

/-- `_collect_all_tags`. -/
def collectAllTags (fs : FS) (diaryDir date : Str) (newTags : Option (List Str)) :
    Option (List Str) :=
  (loadDiary fs diaryDir date).map fun entries =>
    sortedSet (newTags.getD [] ++ entries.flatMap (·.tags))

/-- `" ".join(f"#{tag}" for tag in tags)`. -/
def inlineOf (ts : List Str) : Str := List.intercalate [' '] (ts.map ('#' :: ·))

/-- The trailing inline-tag text of an appended section (empty when no
tags are supplied). -/
def tagPart (ts : List Str) : Str :=
  if ts.isEmpty then [] else "\n\n".toList ++ inlineOf ts

/-- The section text appended for one new entry. -/
def entryBlock (timeStr content : Str) (tags : Option (List Str)) : Str :=
  let inlineTags :=
    match tags with
    | some ts => if ts.isEmpty then [] else inlineOf ts
    | none => []
  "\n\n## ".toList ++ timeStr ++ "\n\n".toList ++ content ++
    (if inlineTags.isEmpty then [] else "\n\n".toList ++ inlineTags)

/-- `_append_entry_to_markdown` with `datetime.now()` passed in as `now`
(it only feeds `modification_date`). -/
def appendEntryToMarkdown (fs : FS) (diaryDir : Str) (now : DateTime)
    (date timeStr content : Str) (tags : Option (List Str)) : Option FS :=
  match getDiaryFile diaryDir date with
  | none => none
  | some file =>
    let block := entryBlock timeStr content tags
    match fsRead fs file with
    | some existing =>
      let body := (parseFrontmatter existing).2
      match collectAllTags fs diaryDir date tags with
      | none => none
      | some allTags =>
        let fm := buildFrontmatter (formatFull now) date allTags
        some (fsWrite fs file (fm ++ '\n' :: body ++ block))
    | none =>
      let allTags := tags.getD []
      let fm := buildFrontmatter (formatFull now) date allTags
      some (fsWrite fs file (fm ++ block))

def invalidDatetimeMsg (s : Str) : Str :=
  "Invalid datetime format: ".toList ++ s ++ ". Use YYYY-MM-DD HH:MM:SS".toList

def confirmMsg (dt : DateTime) (tags : Option (List Str)) : Str :=
  "Diary entry added for ".toList ++ formatFull dt ++
    (match tags with
     | some ts =>
       if ts.isEmpty then [] else " [tags: ".toList ++ joinCommaSpace ts ++ "]".toList
     | none => [])

/-- The body of `add_diary` once the entry datetime is known. -/
def addDiaryAt (fs : FS) (diaryDir : Str) (now entryDt : DateTime)
    (content : Str) (tags : Option (List Str)) : Option (Str × FS) :=
  match appendEntryToMarkdown fs diaryDir now (formatDate entryDt)
      (formatHM entryDt) content tags with
  | none => none
  | some fs2 => some (confirmMsg entryDt tags, fs2)

/-- `add_diary`.  Result: `none` for a crash, otherwise the returned
message and the resulting store. -/
def addDiary (fs : FS) (diaryDir : Str) (now : DateTime) (content : Str)
    (tags : Option (List Str)) (datetimeStr : Option Str) : Option (Str × FS) :=
  match datetimeStr with
  | some s =>
    match strptimeFull s with
    | none => some (invalidDatetimeMsg s, fs)
    | some dt => addDiaryAt fs diaryDir now dt content tags
  | none => addDiaryAt fs diaryDir now now content tags

/-- `_parse_datetime_range`; `none` models the uncaught `ValueError` when
a given bound fails both formats. -/
def parseDatetimeRange (startS endS : Option Str) (now : DateTime) :
    Option (DateTime × DateTime) :=
  let startDt :=
    match startS with
    | none => some (subDays now 30)
    | some s =>
      match strptimeFull s with
      | some dt => some dt
      | none => strptimeDate s
  let endDt :=
    match endS with
    | none => some now
    | some s =>
      match strptimeFull s with
      | some dt => some dt
      | none =>
        (strptimeDate s).map fun dt =>
          { dt with hour := 23, minute := 59, second := 59 }
  match startDt, endDt with
  | some a, some b => some (a, b)
  | _, _ => none

def lowerStr (s : Str) : Str := s.map Char.toLower

/-- `_entry_matches_filter`.  An empty `keyword`/`tag` argument is falsy in
Python and disables the corresponding check. -/
def entryMatchesFilter (e : Entry) (startDt endDt : DateTime)
    (keyword tag : Option Str) : Bool :=
  (if e.dt.isEmpty then true
   else
     match strptimeFull e.dt with
     | none => false
     | some dt => dtLE startDt dt && dtLE dt endDt)
  && (match keyword with
      | none => true
      | some k => k.isEmpty || hasSub (lowerStr k) (lowerStr e.content))
  && (match tag with
      | none => true
      | some t => t.isEmpty || (e.tags.map lowerStr).contains (lowerStr t))

/-- One output line for an entry in `_format_search_results`. -/
def entryLine (e : Entry) : Str :=
  let displayContent :=
    if e.content.length ≤ 100 then e.content else e.content.take 100 ++ "...".toList
  let tagStr :=
    if e.tags.isEmpty then [] else " [".toList ++ joinCommaSpace e.tags ++ [']']
  if e.dt.isEmpty then
    "  -".toList ++ tagStr ++ ' ' :: displayContent
  else
    let displayTime :=
      if e.dt.contains ' ' then (splitOnChar ' ' e.dt).getLastD [] else e.dt
    "  [".toList ++ displayTime ++ ']' :: tagStr ++ ' ' :: displayContent

/-- The per-result lines, tracking the current date group. -/
def resultLines : List (Str × Entry) → Option Str → List Str
  | [], _ => []
  | (fd, e) :: rest, cur =>
    (if cur = some fd then [] else
      (if cur = none then [] else [[]]) ++ ["Date: ".toList ++ fd]) ++
    entryLine e :: resultLines rest (some fd)

/-- `_format_search_results`. -/
def formatSearchResults (results : List (Str × Entry)) : Str :=
  if results.isEmpty then "No matching diary entries found".toList
  else joinNL ("Diary Entries:".toList :: [] :: resultLines results none)

/-- `Path.stem` restricted to the `*.md` filenames selected by the glob. -/
def stemOf (name : Str) : Str :=
  if ".md".toList.isSuffixOf name && 3 < name.length then name.take (name.length - 3)
  else name

def lastComponent (p : Str) : Str := (splitOnChar '/' p).getLastD []

/-- The `*.md` files below `diary_dir` (recursive glob). -/
def mdFilesUnder (fs : FS) (diaryDir : Str) : List Str :=
  (fs.map (·.1)).filter fun p =>
    (diaryDir ++ ['/']).isPrefixOf p && ".md".toList.isSuffixOf p

/-- `sorted(paths, reverse=True)`: Python orders `Path`s by their
component tuples. -/
def pathLt (a b : Str) : Bool :=
  go (splitOnChar '/' a) (splitOnChar '/' b)
where
  go : List Str → List Str → Bool
    | [], [] => false
    | [], _ :: _ => true
    | _ :: _, [] => false
    | x :: xs, y :: ys =>
      if strLt x y then true else if strLt y x then false else go xs ys

def insertPathDesc (x : Str) : List Str → List Str
  | [] => [x]
  | y :: ys => if pathLt y x then x :: y :: ys else y :: insertPathDesc x ys

def sortPathsDesc (l : List Str) : List Str := l.foldr insertPathDesc []

/-- `_iter_diary_files`: the file dates (stems) of candidate files, in
descending path order, filtered by the lexicographic date-range check. -/
def iterDiaryFiles (fs : FS) (diaryDir startDate endDate : Str) : List Str :=
  (sortPathsDesc (mdFilesUnder fs diaryDir)).filterMap fun p =>
    let fd := stemOf (lastComponent p)
    if strLe startDate fd && strLe fd endDate then some fd else none

/-- The `results` list accumulated by `search_diary`; `none` models a crash
while loading one of the candidate files. -/
def searchResults (fs : FS) (diaryDir : Str) (keyword tag : Option Str)
    (startDt endDt : DateTime) : Option (List (Str × Entry)) :=
  (iterDiaryFiles fs diaryDir (formatDate startDt) (formatDate endDt)).foldl
    (fun acc fd =>
      match acc with
      | none => none
      | some l =>
        match loadDiary fs diaryDir fd with
        | none => none
        | some entries =>
          some (l ++ (entries.filter fun e =>
            entryMatchesFilter e startDt endDt keyword tag).map (fd, ·)))
    (some [])

/-- `search_diary`; `none` models an uncaught exception. -/
def searchDiary (fs : FS) (diaryDir : Str) (keyword tag : Option Str)
    (startS endS : Option Str) (now : DateTime) : Option Str :=
  match parseDatetimeRange startS endS now with
  | none => none
  | some (s, e) =>
    (searchResults fs diaryDir keyword tag s e).map formatSearchResults

/-!
Statement-level helper definitions.
-/

/-- The field ranges a Python `datetime` value can hold. -/
def validDT (dt : DateTime) : Bool :=
  validDate dt.year dt.month dt.day &&
    dt.hour ≤ 23 && dt.minute ≤ 59 && dt.second ≤ 59

/-- Midnight of the calendar day of `dt`. -/
def dayStart (dt : DateTime) : DateTime := ⟨dt.year, dt.month, dt.day, 0, 0, 0⟩

/-- 23:59:59 of the calendar day of `dt`. -/
def dayEnd (dt : DateTime) : DateTime := ⟨dt.year, dt.month, dt.day, 23, 59, 59⟩

/-- A string that introduces no stray `---` delimiter, even when followed by
dashes: the `content.split("---", 2)` in `_parse_frontmatter` then cuts the
file exactly at the delimiters `_build_frontmatter` wrote. -/
def dashSafe (s : Str) : Bool := ! hasSub "---".toList (s ++ ['-', '-'])

/-- The `tags` entry of a file's parsed frontmatter, when it parsed as a
list. -/
def frontTags (content : Str) : Option (List Str) :=
  match dictFind (parseFrontmatter content).1 "tags".toList with
  | some (.tagList ts) => some ts
  | _ => none

/-- A well-formed tag: what the spec calls a short identifier (a nonempty
run of word characters as the source's tag patterns match them). -/
def wfTag (t : Str) : Bool := ! t.isEmpty && t.all isTagChar

/-- The `datetime` string `_parse_entries` gives an entry appended at
`dt` (the stored header has minute resolution; seconds render as `00`). -/
def entryDtStr (dt : DateTime) : Str :=
  formatDate dt ++ ' ' :: pad2 dt.hour ++ ':' :: pad2 dt.minute ++ ":00".toList

/-- The entries obtained from a body given as a list of lines;
`parseEntries body D = entriesOfLines D (splitNL body)` by definition. -/
def entriesOfLines (fileDate : Str) (ls : List Str) : List Entry :=
  (sectionsOf ls).filterMap fun p => mkEntry fileDate p.1 p.2

/-- The path `_get_diary_file` computes for a well-formed date. -/
def diaryPath (dir : Str) (dt : DateTime) : Str :=
  dir ++ '/' :: pad4 dt.year ++ '/' :: pad2 dt.month ++ '/' ::
    formatDate dt ++ ".md".toList

/-!
Lemmas: splitting, stripping and joining.
-/

theorem splitOnChar_ne_nil (sep : Char) (s : Str) : splitOnChar sep s ≠ [] := by
  induction s with
  | nil => simp [splitOnChar]
  | cons c rest ih =>
    by_cases h : c = sep
    · simp [splitOnChar, h]
    · simp only [splitOnChar, if_neg h]
      rcases hs : splitOnChar sep rest with _ | ⟨l, ls⟩
      · simp
      · simp

theorem splitOnChar_append (sep : Char) (x y : Str) :
    splitOnChar sep (x ++ sep :: y) = splitOnChar sep x ++ splitOnChar sep y := by
  induction x with
  | nil => simp [splitOnChar]
  | cons c rest ih =>
    by_cases h : c = sep
    · simp [splitOnChar, h, ih]
    · simp only [List.cons_append, splitOnChar, if_neg h]
      rcases hs : splitOnChar sep rest with _ | ⟨l, ls⟩
      · exact absurd hs (splitOnChar_ne_nil sep rest)
      · simp only [List.append_eq]
        rw [ih, hs]
        simp

theorem splitOnChar_no_sep (sep : Char) (x : Str) (h : ∀ c ∈ x, c ≠ sep) :
    splitOnChar sep x = [x] := by
  induction x with
  | nil => simp [splitOnChar]
  | cons c rest ih =>
    have hc : c ≠ sep := h c (by simp)
    have := ih fun d hd => h d (by simp [hd])
    simp [splitOnChar, hc, this]

theorem joinNL_splitNL (s : Str) : joinNL (splitNL s) = s := by
  induction s with
  | nil => simp [splitNL, splitOnChar, joinNL, List.intercalate]
  | cons c rest ih =>
    by_cases h : c = '\n'
    · subst h
      simp only [splitNL, splitOnChar, if_pos rfl] at *
      rcases hs : splitOnChar '\n' rest with _ | ⟨l, ls⟩
      · exact absurd hs (splitOnChar_ne_nil '\n' rest)
      · simp only [joinNL, List.intercalate] at *
        rw [hs] at ih
        simp only [List.intersperse, List.join] at *
        simpa using ih
    · simp only [splitNL, splitOnChar, if_neg h] at *
      rcases hs : splitOnChar '\n' rest with _ | ⟨l, ls⟩
      · exact absurd hs (splitOnChar_ne_nil '\n' rest)
      · rw [hs] at ih
        simp only [joinNL, List.intercalate] at *
        cases ls <;> simpa using ih

theorem joinNL_cons_nil (z : List Str) : joinNL ([] :: z) = '\n' :: joinNL z ∨ z = [] := by
  cases z with
  | nil => right; rfl
  | cons a as => left; simp [joinNL, List.intercalate, List.intersperse]

/-!
Character-class and strip lemmas.
-/

theorem tagChar_not_space {c : Char} (h : isTagChar c = true) :
    isSpaceChar c = false := by
  simp only [isTagChar, Bool.or_eq_true, Bool.and_eq_true, decide_eq_true_eq] at h
  simp only [isSpaceChar, Bool.or_eq_false_iff, Bool.and_eq_false_iff,
    decide_eq_false_iff_not]
  omega

theorem digit_tagChar {c : Char} (h : isDigitCh c = true) : isTagChar c = true := by
  simp only [isDigitCh, Bool.and_eq_true, decide_eq_true_eq] at h
  simp only [isTagChar, Bool.or_eq_true, Bool.and_eq_true, decide_eq_true_eq]
  omega

theorem digit_not_space {c : Char} (h : isDigitCh c = true) :
    isSpaceChar c = false :=
  tagChar_not_space (digit_tagChar h)

theorem not_space_hash : isSpaceChar '#' = false := by decide

theorem lstrip_cons_not_space {c : Char} (s : Str) (h : isSpaceChar c = false) :
    lstrip (c :: s) = c :: s := by
  simp [lstrip, List.dropWhile, h]

theorem rstrip_eq_self {s : Str} {c : Char}
    (h : s.getLast? = some c) (hc : isSpaceChar c = false) : rstrip s = s := by
  unfold rstrip
  rcases hs : s.reverse with _ | ⟨a, t⟩
  · simp [List.reverse_eq_nil_iff.mp hs]
  · have ha : a = c := by
      have h2 : s.reverse.head? = s.getLast? := List.head?_reverse s
      rw [hs, h] at h2
      simpa using h2
    subst ha
    rw [List.dropWhile_cons_of_neg (by simp [hc])]
    rw [← hs, List.reverse_reverse]

theorem strip_nil : strip [] = [] := by decide

theorem dropWhile_head_not {p : Char → Bool} {l t : Str} {c : Char}
    (h : l.dropWhile p = c :: t) : p c = false := by
  induction l with
  | nil => simp [List.dropWhile] at h
  | cons a as ih =>
    by_cases hp : p a
    · rw [List.dropWhile_cons_of_pos hp] at h; exact ih h
    · rw [List.dropWhile_cons_of_neg hp] at h
      cases h; simpa using hp

theorem lstrip_head {s t : Str} {c : Char} (h : lstrip s = c :: t) :
    isSpaceChar c = false := dropWhile_head_not h

theorem rstrip_getLast {s : Str} {c : Char}
    (h : (rstrip s).getLast? = some c) : isSpaceChar c = false := by
  have h1 : (rstrip s).reverse = s.reverse.dropWhile isSpaceChar := by
    simp [rstrip]
  have h2 : (rstrip s).reverse.head? = (rstrip s).getLast? :=
    List.head?_reverse _
  rw [h1, h] at h2
  rcases hd : s.reverse.dropWhile isSpaceChar with _ | ⟨a, t⟩
  · rw [hd] at h2; simp at h2
  · rw [hd] at h2
    simp only [List.head?_cons, Option.some_inj] at h2
    subst h2
    exact dropWhile_head_not hd

theorem rstrip_append_ws {x : Str} {c : Char} (hc : isSpaceChar c = true) :
    rstrip (x ++ [c]) = rstrip x := by
  unfold rstrip
  rw [List.reverse_append]
  simp [List.dropWhile, hc]

theorem rstrip_idem (s : Str) : rstrip (rstrip s) = rstrip s := by
  rcases hg : (rstrip s).getLast? with _ | c
  · rcases hr : rstrip s with _ | ⟨a, t⟩
    · simp [rstrip]
    · rw [hr] at hg; simp at hg
  · exact rstrip_eq_self hg (rstrip_getLast hg)

theorem rstrip_cons (c : Char) (t : Str) :
    rstrip (c :: t) =
      if (rstrip t).isEmpty then (if isSpaceChar c then [] else [c])
      else c :: rstrip t := by
  show ((c :: t).reverse.dropWhile isSpaceChar).reverse = _
  rw [List.reverse_cons, List.dropWhile_append]
  by_cases h : (t.reverse.dropWhile isSpaceChar).isEmpty
  · rw [if_pos h]
    have : (rstrip t).isEmpty := by
      simp only [rstrip]
      simpa using h
    rw [if_pos this]
    by_cases hc : isSpaceChar c <;> simp [List.dropWhile, hc]
  · rw [if_neg h]
    have : ¬ (rstrip t).isEmpty := by
      simp only [rstrip]
      simpa using h
    rw [if_neg this]
    simp [rstrip]

theorem strip_cons_ends {c : Char} {m : Str}
    (hc : isSpaceChar c = false) (hd : ∀ d, (c :: m).getLast? = some d →
      isSpaceChar d = false) : strip (c :: m) = c :: m := by
  unfold strip
  rw [lstrip_cons_not_space _ hc]
  rcases hg : (c :: m).getLast? with _ | d
  · simp at hg
  · exact rstrip_eq_self hg (hd d hg)

theorem strip_idem (s : Str) : strip (strip s) = strip s := by
  unfold strip
  rcases hl : lstrip s with _ | ⟨c, t⟩
  · simp [lstrip, rstrip, List.dropWhile]
  · have hc : isSpaceChar c = false := lstrip_head hl
    have hhead : lstrip (rstrip (c :: t)) = rstrip (c :: t) := by
      rw [rstrip_cons]
      by_cases h : (rstrip t).isEmpty
      · rw [if_pos h, if_neg (by simp [hc])]
        exact lstrip_cons_not_space _ hc
      · rw [if_neg h]
        exact lstrip_cons_not_space _ hc
    rw [hhead, rstrip_idem]

theorem strip_append_nl (x : Str) : strip (x ++ ['\n']) = strip x := by
  unfold strip lstrip
  rw [List.dropWhile_append]
  by_cases h : (x.dropWhile isSpaceChar).isEmpty
  · rw [if_pos h]
    have : (x.dropWhile isSpaceChar) = [] := by simpa using h
    rw [this]
    simp [List.dropWhile, rstrip]
  · rw [if_neg h]
    exact rstrip_append_ws (by decide)

theorem joinNL_concat_nil (ls : List Str) (hne : ls ≠ []) :
    joinNL (ls ++ [[]]) = joinNL ls ++ ['\n'] := by
  induction ls with
  | nil => simp at hne
  | cons a as ih =>
    cases as with
    | nil => simp [joinNL, List.intercalate, List.intersperse]
    | cons b bs =>
      have := ih (by simp)
      simp only [joinNL, List.intercalate] at *
      simp only [List.cons_append, List.intersperse] at *
      simpa [List.join] using this

theorem strip_join_concat_nil (ls : List Str) :
    strip (joinNL (ls ++ [[]])) = strip (joinNL ls) := by
  cases ls with
  | nil => simp [joinNL, List.intercalate]
  | cons a as =>
    rw [joinNL_concat_nil _ (by simp), strip_append_nl]

/-!
Section-splitting lemmas: appending one section block at the end of a body
adds exactly one section and leaves the earlier sections intact.
-/

theorem headerTime_nil : headerTime [] = none := rfl

theorem mkEntry_concat_nil (D t : Str) (ls : List Str) :
    mkEntry D t (ls ++ [[]]) = mkEntry D t ls := by
  unfold mkEntry
  rw [strip_join_concat_nil]

theorem collectSections_content (zs : List Str) (t : Str) (acc : List Str)
    (h : ∀ l ∈ zs, headerTime l = none) :
    collectSections zs t acc = [(t, acc.reverse ++ zs)] := by
  induction zs generalizing acc with
  | nil => simp [collectSections]
  | cons z zs2 ih =>
    have hz : headerTime z = none := h z (by simp)
    have h2 : ∀ l ∈ zs2, headerTime l = none := fun l hl => h l (by simp [hl])
    simp only [collectSections, hz]
    rw [ih _ h2]
    simp

theorem sectionsOf_content (ls : List Str) (h : ∀ l ∈ ls, headerTime l = none) :
    sectionsOf ls = [] := by
  induction ls with
  | nil => rfl
  | cons l ls2 ih =>
    have hl : headerTime l = none := h l (by simp)
    simp only [sectionsOf, hl]
    exact ih fun x hx => h x (by simp [hx])

theorem collect_entries_append (D hdr t2 : Str) (Z : List Str)
    (hh : headerTime hdr = some t2) (hZ : ∀ l ∈ Z, headerTime l = none)
    (L : List Str) (t : Str) (acc : List Str) :
    (collectSections (L ++ [] :: hdr :: [] :: Z) t acc).filterMap
        (fun p => mkEntry D p.1 p.2) =
      (collectSections L t acc).filterMap (fun p => mkEntry D p.1 p.2) ++
        (mkEntry D t2 ([] :: Z)).toList := by
  induction L generalizing t acc with
  | nil =>
    simp only [List.nil_append, collectSections, headerTime_nil, hh]
    rw [collectSections_content Z t2 [[]] hZ]
    have hcat : (([] : Str) :: acc).reverse = acc.reverse ++ [[]] := by simp
    rw [hcat]
    have hinv := mkEntry_concat_nil D t acc.reverse
    cases hm : mkEntry D t acc.reverse <;>
      cases hm2 : mkEntry D t2 ([] :: Z) <;>
        rw [hm] at hinv <;>
          simp [List.filterMap_cons, hinv, hm, hm2]
  | cons l L2 ih =>
    rcases hl : headerTime l with _ | th
    · simp only [List.cons_append, collectSections, hl]
      exact ih _ _
    · simp only [List.cons_append, collectSections, hl]
      cases hm : mkEntry D t acc.reverse <;>
        simp only [List.filterMap_cons, hm, List.append_eq] <;>
          rw [ih th []] <;> simp

theorem entriesOfLines_append (D hdr t2 : Str) (L Z : List Str)
    (hh : headerTime hdr = some t2) (hZ : ∀ l ∈ Z, headerTime l = none) :
    entriesOfLines D (L ++ [] :: hdr :: [] :: Z) =
      entriesOfLines D L ++ (mkEntry D t2 ([] :: Z)).toList := by
  induction L with
  | nil =>
    unfold entriesOfLines
    simp only [List.nil_append, sectionsOf, headerTime_nil, hh, collectSections]
    rw [collectSections_content Z t2 [[]] hZ]
    cases hm2 : mkEntry D t2 ([] :: Z) <;> simp [List.filterMap_cons, hm2]
  | cons l L2 ih =>
    rcases hl : headerTime l with _ | th
    · unfold entriesOfLines at *
      simp only [List.cons_append, sectionsOf, hl]
      exact ih
    · unfold entriesOfLines
      simp only [List.cons_append, sectionsOf, hl]
      exact collect_entries_append D hdr t2 Z hh hZ L2 th []

/-!
Scanner lemmas: `findTags` and `subTags` on the block text the appender
writes.
-/

theorem takeWhile_all {p : Char → Bool} {l : Str} (h : ∀ c ∈ l, p c = true) :
    l.takeWhile p = l := by
  induction l with
  | nil => rfl
  | cons c t ih =>
    rw [List.takeWhile_cons_of_pos (h c (by simp))]
    rw [ih fun d hd => h d (by simp [hd])]

theorem dropWhile_all {p : Char → Bool} {l : Str} (h : ∀ c ∈ l, p c = true) :
    l.dropWhile p = [] := by
  induction l with
  | nil => rfl
  | cons c t ih =>
    rw [List.dropWhile_cons_of_pos (h c (by simp))]
    exact ih fun d hd => h d (by simp [hd])

theorem takeWhile_run {p : Char → Bool} {t r : Str} {c : Char}
    (h : ∀ d ∈ t, p d = true) (hc : p c = false) :
    (t ++ c :: r).takeWhile p = t ∧ (t ++ c :: r).dropWhile p = c :: r := by
  induction t with
  | nil => simp [List.takeWhile_cons_of_neg, List.dropWhile_cons_of_neg, hc]
  | cons a t2 ih =>
    have ha : p a = true := h a (by simp)
    have := ih fun d hd => h d (by simp [hd])
    simp only [List.cons_append, List.takeWhile_cons_of_pos ha,
      List.dropWhile_cons_of_pos ha]
    exact ⟨by rw [this.1], this.2⟩

theorem dropWhile_append_all {p : Char → Bool} {w : Str} (y : Str)
    (h : ∀ c ∈ w, p c = true) : (w ++ y).dropWhile p = y.dropWhile p := by
  induction w with
  | nil => rfl
  | cons a t ih =>
    rw [List.cons_append, List.dropWhile_cons_of_pos (h a (by simp))]
    exact ih fun d hd => h d (by simp [hd])

theorem dropWhile_append_of_ne_nil {p : Char → Bool} {x : Str} (y : Str)
    (h : x.dropWhile p ≠ []) : (x ++ y).dropWhile p = x.dropWhile p ++ y := by
  rw [List.dropWhile_append, if_neg (by simpa using h)]

theorem findTags_cons_no_hash {c : Char} (x : Str) (h : c ≠ '#') :
    findTags (c :: x) = findTags x := by
  rw [findTags]
  simp [h]

theorem findTags_append_no_hash {x : Str} (y : Str) (h : ∀ c ∈ x, c ≠ '#') :
    findTags (x ++ y) = findTags y := by
  induction x with
  | nil => rfl
  | cons c t ih =>
    rw [List.cons_append, findTags_cons_no_hash _ (h c (by simp))]
    exact ih fun d hd => h d (by simp [hd])

theorem findTags_no_hash {x : Str} (h : ∀ c ∈ x, c ≠ '#') : findTags x = [] := by
  have h2 := findTags_append_no_hash (x := x) [] h
  rw [List.append_nil] at h2
  rw [h2, findTags]

theorem wfTag_fields {t : Str} (h : wfTag t = true) :
    t ≠ [] ∧ ∀ c ∈ t, isTagChar c = true := by
  simp only [wfTag, Bool.and_eq_true, Bool.not_eq_true', List.all_eq_true] at h
  obtain ⟨h1, h2⟩ := h
  refine ⟨?_, h2⟩
  intro he
  subst he
  simp at h1

theorem exists_getLast?_mem {l : Str} (h : l ≠ []) :
    ∃ c, l.getLast? = some c ∧ c ∈ l := by
  induction l with
  | nil => simp at h
  | cons a t ih =>
    cases t with
    | nil => exact ⟨a, by simp⟩
    | cons b t2 =>
      obtain ⟨c, hc1, hc2⟩ := ih (by simp)
      exact ⟨c, by rw [List.getLast?_cons_cons]; exact hc1, by simp [hc2]⟩

theorem inline_cons_cons (t u : Str) (T2 : List Str) :
    inlineOf (t :: u :: T2) = '#' :: t ++ ' ' :: inlineOf (u :: T2) := by
  simp [inlineOf, List.intercalate, List.intersperse]

theorem inline_single (t : Str) : inlineOf [t] = '#' :: t := by
  simp [inlineOf, List.intercalate, List.intersperse]

theorem findTags_cons_hash {rest : Str}
    (h : (rest.takeWhile isTagChar).isEmpty = false) :
    findTags ('#' :: rest) =
      rest.takeWhile isTagChar :: findTags (rest.dropWhile isTagChar) := by
  rw [findTags]
  simp [h]

theorem findTags_inline (T : List Str) (hT : ∀ t ∈ T, wfTag t = true)
    (hne : T ≠ []) : findTags (inlineOf T) = T := by
  induction T with
  | nil => simp at hne
  | cons t T2 ih =>
    obtain ⟨ht1, ht2⟩ := wfTag_fields (hT t (by simp))
    cases T2 with
    | nil =>
      rw [inline_single]
      rw [findTags_cons_hash (by rw [takeWhile_all ht2]; simpa using ht1)]
      rw [takeWhile_all ht2, dropWhile_all ht2, findTags]
    | cons u T3 =>
      rw [inline_cons_cons]
      have hrun := takeWhile_run (c := ' ') (r := inlineOf (u :: T3)) ht2 (by decide)
      rw [List.cons_append]
      rw [findTags_cons_hash (by rw [hrun.1]; simpa using ht1)]
      rw [hrun.1, hrun.2]
      rw [findTags_cons_no_hash _ (by decide)]
      rw [ih (fun x hx => hT x (by simp [hx])) (by simp)]

theorem inline_last_tagChar (T : List Str) (hT : ∀ t ∈ T, wfTag t = true)
    (hne : T ≠ []) :
    ∃ c, (inlineOf T).getLast? = some c ∧ isTagChar c = true := by
  induction T with
  | nil => simp at hne
  | cons t T2 ih =>
    obtain ⟨ht1, ht2⟩ := wfTag_fields (hT t (by simp))
    cases T2 with
    | nil =>
      rw [inline_single]
      obtain ⟨c, hc1, hc2⟩ := exists_getLast?_mem ht1
      refine ⟨c, ?_, ht2 c hc2⟩
      cases t with
      | nil => simp at ht1
      | cons a t2 => rw [List.getLast?_cons_cons]; exact hc1
    | cons u T3 =>
      obtain ⟨c, hc1, hc2⟩ := ih (fun x hx => hT x (by simp [hx])) (by simp)
      refine ⟨c, ?_, hc2⟩
      have hsp : (' ' :: inlineOf (u :: T3)).getLast? = some c := by
        cases hi : inlineOf (u :: T3) with
        | nil => rw [hi] at hc1; simp at hc1
        | cons b bs => rw [List.getLast?_cons_cons, ← hi]; exact hc1
      rw [inline_cons_cons]
      show (('#' :: t) ++ (' ' :: inlineOf (u :: T3))).getLast? = some c
      rw [List.getLast?_append, hsp]
      rfl

theorem inline_head_hash (t : Str) (T2 : List Str) :
    ∃ r, inlineOf (t :: T2) = '#' :: r := by
  cases T2 with
  | nil => exact ⟨t, inline_single t⟩
  | cons u T3 => exact ⟨t ++ ' ' :: inlineOf (u :: T3), by rw [inline_cons_cons]; simp⟩

theorem tagMatchLen_none_no_hash {s : Str} (h : ∀ c ∈ s, c ≠ '#') :
    tagMatchLen s = none := by
  unfold tagMatchLen
  rcases hd : s.dropWhile isSpaceChar with _ | ⟨d, r2⟩
  · simp
  · have hmem : d ∈ s := by
      have hs := (List.dropWhile_sublist (l := s) isSpaceChar).subset
      rw [hd] at hs
      exact hs (by simp)
    simp [h d hmem]

theorem subTags_cons_none {c : Char} {rest : Str}
    (h : tagMatchLen (c :: rest) = none) :
    subTags (c :: rest) = c :: subTags rest := by
  rw [subTags]
  rw [dif_neg (by simp [h])]

theorem subTags_cons_some {c : Char} {rest : Str} {k : Nat}
    (h : tagMatchLen (c :: rest) = some k) :
    subTags (c :: rest) = subTags ((c :: rest).drop k) := by
  rw [subTags]
  rw [dif_pos (by simp [h])]
  congr 1
  simp [h]

theorem subTags_no_hash {x : Str} (h : ∀ c ∈ x, c ≠ '#') : subTags x = x := by
  induction x with
  | nil => rw [subTags]
  | cons c rest ih =>
    rw [subTags_cons_none (tagMatchLen_none_no_hash h)]
    rw [ih fun d hd => h d (by simp [hd])]

theorem tagMatchLen_ws_hash_run {w t r : Str}
    (hw : ∀ c ∈ w, isSpaceChar c = true) (ht1 : t ≠ [])
    (ht2 : ∀ c ∈ t, isTagChar c = true)
    (hr : r = [] ∨ ∃ c r2, r = c :: r2 ∧ isTagChar c = false) :
    tagMatchLen (w ++ '#' :: (t ++ r)) = some (w.length + 1 + t.length) ∧
      (w ++ '#' :: (t ++ r)).drop (w.length + 1 + t.length) = r := by
  have hdrop : (w ++ '#' :: (t ++ r)).dropWhile isSpaceChar = '#' :: (t ++ r) := by
    rw [dropWhile_append_all _ hw]
    rw [List.dropWhile_cons_of_neg (by decide)]
  have htake : (w ++ '#' :: (t ++ r)).takeWhile isSpaceChar = w := by
    have := takeWhile_run (p := isSpaceChar) (t := w) (c := '#')
      (r := t ++ r) hw (by decide)
    exact this.1
  have hrun : (t ++ r).takeWhile isTagChar = t := by
    rcases hr with h0 | ⟨c, r2, hr2, hc⟩
    · subst h0; rw [List.append_nil]; exact takeWhile_all ht2
    · subst hr2; exact (takeWhile_run ht2 hc).1
  constructor
  · unfold tagMatchLen
    rw [hdrop]
    simp only [List.head?_cons, List.tail_cons, hrun, htake, if_true]
    simp [ht1]
  · have hshape : w ++ '#' :: (t ++ r) = (w ++ '#' :: t) ++ r := by simp
    rw [hshape]
    have hlen : (w ++ '#' :: t).length = w.length + 1 + t.length := by
      simp; omega
    rw [← hlen, List.drop_left]

theorem subTags_ws_inline (T : List Str) (hT : ∀ t ∈ T, wfTag t = true)
    (hne : T ≠ []) :
    ∀ w : Str, (∀ c ∈ w, isSpaceChar c = true) → subTags (w ++ inlineOf T) = [] := by
  induction T with
  | nil => simp at hne
  | cons t T2 ih =>
    intro w hw
    obtain ⟨ht1, ht2⟩ := wfTag_fields (hT t (by simp))
    cases T2 with
    | nil =>
      rw [inline_single]
      have hm := tagMatchLen_ws_hash_run (r := []) hw ht1 ht2 (Or.inl rfl)
      rw [List.append_nil] at hm
      rcases hs : w ++ '#' :: t with _ | ⟨c, rest⟩
      · simp at hs
      · rw [hs] at hm
        rw [subTags_cons_some hm.1, hm.2, subTags]
    | cons u T3 =>
      rw [inline_cons_cons]
      have hm := tagMatchLen_ws_hash_run (r := ' ' :: inlineOf (u :: T3))
        hw ht1 ht2 (Or.inr ⟨' ', inlineOf (u :: T3), rfl, by decide⟩)
      rw [List.cons_append]
      rcases hs : w ++ '#' :: (t ++ ' ' :: inlineOf (u :: T3)) with _ | ⟨c, rest⟩
      · simp at hs
      · rw [hs] at hm
        rw [subTags_cons_some hm.1, hm.2]
        exact ih (fun x hx => hT x (by simp [hx])) (by simp) [' '] (by decide)

theorem dropWhile_ne_nil_of_last {x : Str} {d : Char}
    (hg : x.getLast? = some d) (hd : isSpaceChar d = false) :
    x.dropWhile isSpaceChar ≠ [] := by
  intro hnil
  have hall := List.dropWhile_eq_nil_iff.mp hnil
  have hmem : d ∈ x := by
    rcases x with _ | ⟨a, t⟩
    · simp at hg
    · obtain ⟨c, hc1, hc2⟩ := exists_getLast?_mem (l := a :: t) (by simp)
      rw [hg] at hc1
      cases hc1
      exact hc2
  rw [hall d hmem] at hd
  simp at hd

theorem subTags_keep_front (x y : Str) (hx : ∀ c ∈ x, c ≠ '#')
    (hxl : ∀ d, x.getLast? = some d → isSpaceChar d = false) :
    subTags (x ++ y) = x ++ subTags y := by
  induction x with
  | nil => simp
  | cons c x2 ih =>
    have hlast : ∃ d, (c :: x2).getLast? = some d :=
      ⟨(c :: x2).getLast (by simp), List.getLast?_eq_getLast _ _⟩
    obtain ⟨d, hd⟩ := hlast
    have hdns : isSpaceChar d = false := hxl d hd
    have hdw : (c :: x2).dropWhile isSpaceChar ≠ [] :=
      dropWhile_ne_nil_of_last hd hdns
    have hnone : tagMatchLen ((c :: x2) ++ y) = none := by
      unfold tagMatchLen
      rw [dropWhile_append_of_ne_nil y hdw]
      rcases hdd : (c :: x2).dropWhile isSpaceChar with _ | ⟨e, r⟩
      · exact absurd hdd hdw
      · have hmem : e ∈ c :: x2 := by
          have hs := (List.dropWhile_sublist (l := c :: x2) isSpaceChar).subset
          rw [hdd] at hs
          exact hs (by simp)
        simp [hx e hmem]
    rw [List.cons_append, subTags_cons_none (by rw [← List.cons_append]; exact hnone)]
    have ihx : subTags (x2 ++ y) = x2 ++ subTags y := by
      apply ih
      · intro e he; exact hx e (by simp [he])
      · intro e he
        apply hxl
        rcases x2 with _ | ⟨a, t⟩
        · simp at he
        · rw [List.getLast?_cons_cons]; exact he
    rw [ihx]
    simp

theorem strip_head_not_space {s : Str} {c : Char} {t : Str}
    (h : strip s = c :: t) : isSpaceChar c = false := by
  unfold strip at h
  rcases hu : lstrip s with _ | ⟨a, u2⟩
  · rw [hu] at h; simp [rstrip] at h
  · have ha : isSpaceChar a = false := lstrip_head hu
    rw [hu, rstrip_cons] at h
    by_cases he : (rstrip u2).isEmpty
    · rw [if_pos he, if_neg (by simp [ha])] at h
      simp only [List.cons.injEq] at h
      rw [← h.1]; exact ha
    · rw [if_neg he] at h
      simp only [List.cons.injEq] at h
      rw [← h.1]; exact ha

theorem strip_last_not_space {s : Str} {d : Char}
    (h : (strip s).getLast? = some d) : isSpaceChar d = false :=
  rstrip_getLast h

/-- The full computation of one appended section: header time `ts`,
content `C`, inline tags for `T`.  The parsed entry has the entry-local
tags and the tag-stripped content. -/
theorem mkEntry_section (D ts C : Str) (T : List Str)
    (hC1 : strip C = C) (hC2 : ∀ c ∈ C, c ≠ '#')
    (hT : ∀ t ∈ T, wfTag t = true)
    (hne : C ≠ [] ∨ T ≠ []) :
    mkEntry D ts ([] :: splitNL (C ++ tagPart T)) =
      some ⟨D ++ ' ' :: ts, C, T⟩ := by
  have hZ : splitNL (C ++ tagPart T) ≠ [] := splitOnChar_ne_nil _ _
  have hjoin : joinNL ([] :: splitNL (C ++ tagPart T)) = '\n' :: (C ++ tagPart T) := by
    rcases joinNL_cons_nil (splitNL (C ++ tagPart T)) with h | h
    · rw [h, joinNL_splitNL]
    · exact absurd h hZ
  have hstrip0 : strip ('\n' :: (C ++ tagPart T)) = strip (C ++ tagPart T) := by
    unfold strip lstrip
    rw [List.dropWhile_cons_of_pos (by decide)]
  unfold mkEntry
  rw [hjoin, hstrip0]
  cases T with
  | nil =>
    have hCne : C ≠ [] := by
      rcases hne with h | h
      · exact h
      · simp at h
    have htp : tagPart [] = [] := by simp [tagPart]
    rw [htp, List.append_nil, hC1]
    rw [if_neg (by simpa using hCne)]
    rw [subTags_no_hash hC2, hC1, findTags_no_hash hC2]
  | cons t T2 =>
    have hTne : (t :: T2 : List Str) ≠ [] := by simp
    obtain ⟨r, hir⟩ := inline_head_hash t T2
    obtain ⟨e, he1, he2⟩ := inline_last_tagChar (t :: T2) hT hTne
    have htp : tagPart (t :: T2) = '\n' :: '\n' :: inlineOf (t :: T2) := by
      simp [tagPart]
    rw [htp]
    cases C with
    | nil =>
      have hblock : strip ([] ++ '\n' :: '\n' :: inlineOf (t :: T2)) =
          inlineOf (t :: T2) := by
        rw [List.nil_append]
        unfold strip lstrip
        rw [List.dropWhile_cons_of_pos (by decide),
          List.dropWhile_cons_of_pos (by decide)]
        have : (inlineOf (t :: T2)).dropWhile isSpaceChar = inlineOf (t :: T2) := by
          rw [hir, List.dropWhile_cons_of_neg (by decide)]
        rw [this]
        exact rstrip_eq_self he1 (tagChar_not_space he2)
      rw [hblock]
      rw [if_neg (by rw [hir]; simp)]
      have hsub : subTags (inlineOf (t :: T2)) = [] := by
        have := subTags_ws_inline (t :: T2) hT hTne [] (by simp)
        simpa using this
      rw [hsub, findTags_inline (t :: T2) hT hTne]
      simp [strip_nil]
    | cons c C2 =>
      have hc : isSpaceChar c = false := strip_head_not_space hC1
      have hlastC : ∀ d, (c :: C2).getLast? = some d → isSpaceChar d = false := by
        intro d hd
        exact strip_last_not_space (s := c :: C2) (by rw [hC1]; exact hd)
      have hgl : ((c :: C2) ++ '\n' :: '\n' :: inlineOf (t :: T2)).getLast? =
          some e := by
        rw [List.getLast?_append]
        have h5 : ('\n' :: '\n' :: inlineOf (t :: T2)).getLast? = some e := by
          rw [hir] at he1 ⊢
          rw [List.getLast?_cons_cons, List.getLast?_cons_cons]
          exact he1
        rw [h5]
        rfl
      have hblock : strip ((c :: C2) ++ '\n' :: '\n' :: inlineOf (t :: T2)) =
          (c :: C2) ++ '\n' :: '\n' :: inlineOf (t :: T2) := by
        unfold strip
        have hl : lstrip ((c :: C2) ++ '\n' :: '\n' :: inlineOf (t :: T2)) =
            (c :: C2) ++ '\n' :: '\n' :: inlineOf (t :: T2) :=
          lstrip_cons_not_space _ hc
        rw [hl]
        exact rstrip_eq_self hgl (tagChar_not_space he2)
      rw [hblock]
      rw [if_neg (by simp)]
      have hsub : subTags ((c :: C2) ++ '\n' :: '\n' :: inlineOf (t :: T2)) =
          (c :: C2) ++ [] := by
        rw [subTags_keep_front _ _ hC2 hlastC]
        have h4 : subTags ('\n' :: '\n' :: inlineOf (t :: T2)) = [] :=
          subTags_ws_inline (t :: T2) hT hTne ['\n', '\n'] (by decide)
        rw [h4]
      have hfind : findTags ((c :: C2) ++ '\n' :: '\n' :: inlineOf (t :: T2)) =
          t :: T2 := by
        have hx : ∀ d ∈ (c :: C2) ++ ['\n', '\n'], d ≠ '#' := by
          intro d hd
          rcases List.mem_append.mp hd with h | h
          · exact hC2 d h
          · have hdnl : d = '\n' := by simpa using h
            rw [hdnl]; decide
        have h2 := findTags_append_no_hash (x := (c :: C2) ++ ['\n', '\n'])
          (inlineOf (t :: T2)) hx
        rw [List.append_assoc] at h2
        have h3 : findTags ((c :: C2) ++ '\n' :: '\n' :: inlineOf (t :: T2)) =
            findTags (inlineOf (t :: T2)) := h2
        rw [h3, findTags_inline (t :: T2) hT hTne]
      rw [hsub, hfind, List.append_nil, hC1]

/-!
The body-level frame lemma: appending one entry block to a stored body
parses to the old entries followed by the one new entry.
-/

theorem strip_cons_ws {c : Char} (x : Str) (hc : isSpaceChar c = true) :
    strip (c :: x) = strip x := by
  unfold strip lstrip
  rw [List.dropWhile_cons_of_pos hc]

theorem headerTime_two {c2 : Char} (rest : Str) (h : c2 ≠ '#') :
    headerTime ('#' :: c2 :: rest) = none := by
  unfold headerTime
  split
  · rename_i heq
    simp only [List.cons.injEq] at heq
    exact absurd heq.2.1 h
  · rfl

theorem tagChar_ne_nl {c : Char} (h : isTagChar c = true) : c ≠ '\n' := by
  intro he
  subst he
  simp [isTagChar] at h

theorem inline_no_nl (T : List Str) (hT : ∀ t ∈ T, wfTag t = true) :
    ∀ c ∈ inlineOf T, c ≠ '\n' := by
  induction T with
  | nil => simp [inlineOf, List.intercalate, List.intersperse]
  | cons t T2 ih =>
    obtain ⟨ht1, ht2⟩ := wfTag_fields (hT t (by simp))
    intro c hc
    cases T2 with
    | nil =>
      rw [inline_single] at hc
      rcases List.mem_cons.mp hc with h | h
      · rw [h]; decide
      · exact tagChar_ne_nl (ht2 c h)
    | cons u T3 =>
      rw [inline_cons_cons, List.cons_append] at hc
      rcases List.mem_cons.mp hc with h | h
      · rw [h]; decide
      · rcases List.mem_append.mp h with h2 | h2
        · exact tagChar_ne_nl (ht2 c h2)
        · rcases List.mem_cons.mp h2 with h3 | h3
          · rw [h3]; decide
          · exact ih (fun x hx => hT x (by simp [hx])) c h3

theorem headerTime_inline_none (t : Str) (T2 : List Str)
    (hT : ∀ x ∈ t :: T2, wfTag x = true) :
    headerTime (inlineOf (t :: T2)) = none := by
  obtain ⟨ht1, ht2⟩ := wfTag_fields (hT t (by simp))
  obtain ⟨tc, t2, htc⟩ : ∃ tc t2, t = tc :: t2 := by
    cases t with
    | nil => simp at ht1
    | cons a b => exact ⟨a, b, rfl⟩
  have htagc : isTagChar tc = true := ht2 tc (by rw [htc]; simp)
  have hne : tc ≠ '#' := by
    intro he
    rw [he] at htagc
    simp [isTagChar] at htagc
  cases T2 with
  | nil =>
    rw [inline_single, htc]
    exact headerTime_two _ hne
  | cons u T3 =>
    rw [inline_cons_cons, htc]
    exact headerTime_two _ hne

theorem sectionLines_no_header (C : Str) (T : List Str)
    (hC3 : ∀ l ∈ splitNL C, headerTime l = none)
    (hT : ∀ t ∈ T, wfTag t = true) :
    ∀ l ∈ splitNL (C ++ tagPart T), headerTime l = none := by
  cases T with
  | nil =>
    have : tagPart [] = [] := by simp [tagPart]
    rw [this, List.append_nil]
    exact hC3
  | cons t T2 =>
    have htp : tagPart (t :: T2) = '\n' :: ('\n' :: inlineOf (t :: T2)) := by
      simp [tagPart]
    rw [htp]
    have hnl : ∀ c ∈ inlineOf (t :: T2), c ≠ '\n' := inline_no_nl _ hT
    have hsplit : splitNL (C ++ '\n' :: ('\n' :: inlineOf (t :: T2))) =
        splitNL C ++ [] :: [inlineOf (t :: T2)] := by
      show splitOnChar '\n' _ = _
      rw [splitOnChar_append]
      congr 1
      show splitOnChar '\n' ('\n' :: inlineOf (t :: T2)) = _
      rw [show splitOnChar '\n' ('\n' :: inlineOf (t :: T2)) =
        [] :: splitOnChar '\n' (inlineOf (t :: T2)) by simp [splitOnChar]]
      rw [splitOnChar_no_sep _ _ hnl]
    rw [hsplit]
    intro l hl
    rcases List.mem_append.mp hl with h | h
    · exact hC3 l h
    · rcases List.mem_cons.mp h with h2 | h2
      · rw [h2]; rfl
      · rcases List.mem_cons.mp h2 with h3 | h3
        · rw [h3]
          exact headerTime_inline_none t T2 hT
        · simp at h3

theorem blockTail_last (C : Str) (T : List Str)
    (hC1 : strip C = C) (hT : ∀ t ∈ T, wfTag t = true)
    (hne : C ≠ [] ∨ T ≠ []) :
    ∃ d, (C ++ tagPart T).getLast? = some d ∧ isSpaceChar d = false := by
  cases T with
  | nil =>
    have h0 : tagPart [] = [] := by simp [tagPart]
    rw [h0, List.append_nil]
    have hCne : C ≠ [] := by
      rcases hne with h | h
      · exact h
      · simp at h
    obtain ⟨d, hd1, _⟩ := exists_getLast?_mem hCne
    exact ⟨d, hd1, strip_last_not_space (by rw [hC1]; exact hd1)⟩
  | cons t T2 =>
    have htp : tagPart (t :: T2) = '\n' :: '\n' :: inlineOf (t :: T2) := by
      simp [tagPart]
    obtain ⟨e, he1, he2⟩ := inline_last_tagChar (t :: T2) hT (by simp)
    obtain ⟨r, hir⟩ := inline_head_hash t T2
    refine ⟨e, ?_, tagChar_not_space he2⟩
    rw [htp, List.getLast?_append]
    have h5 : ('\n' :: '\n' :: inlineOf (t :: T2)).getLast? = some e := by
      rw [hir] at he1 ⊢
      rw [List.getLast?_cons_cons, List.getLast?_cons_cons]
      exact he1
    rw [h5]
    rfl

theorem entriesOfLines_cons_nil (D : Str) (ls : List Str) :
    entriesOfLines D ([] :: ls) = entriesOfLines D ls := by
  unfold entriesOfLines
  simp [sectionsOf, headerTime_nil]

theorem parseEntries_nil (D : Str) : parseEntries [] D = [] := by
  unfold parseEntries splitNL
  simp [splitOnChar, sectionsOf, headerTime_nil]

theorem getLast?_cons_of_ne_nil {c : Char} {l : Str} (h : l ≠ []) :
    (c :: l).getLast? = l.getLast? := by
  cases l with
  | nil => simp at h
  | cons a t => rw [List.getLast?_cons_cons]

theorem entryBlock_eq (ts C : Str) (tags : Option (List Str)) :
    entryBlock ts C tags =
      "\n\n## ".toList ++ ts ++ "\n\n".toList ++ C ++ tagPart (tags.getD []) := by
  cases tags with
  | none => simp [entryBlock, tagPart]
  | some ts2 =>
    cases ts2 with
    | nil => simp [entryBlock, tagPart, inlineOf, List.intercalate]
    | cons t T2 =>
      obtain ⟨r, hir⟩ := inline_head_hash t T2
      have hne : (inlineOf (t :: T2)).isEmpty = false := by rw [hir]; rfl
      simp [entryBlock, tagPart, hne]

theorem entryBlock_shape (ts C : Str) (T : List Str) :
    entryBlock ts C (some T) =
      '\n' :: '\n' :: '#' :: '#' :: ' ' ::
        (ts ++ '\n' :: '\n' :: (C ++ tagPart T)) := by
  rw [entryBlock_eq]
  simp

/-- Frame lemma for one append: reparsing `"\n" + body + entry_block`
(after the strip the reader applies) yields the old entries followed by
the one new entry. -/
theorem parseEntries_body_append (D B ts ts2 C : Str) (T : List Str)
    (hB : strip B = B)
    (hC1 : strip C = C) (hC2 : ∀ c ∈ C, c ≠ '#')
    (hC3 : ∀ l ∈ splitNL C, headerTime l = none)
    (hT : ∀ t ∈ T, wfTag t = true)
    (hne : C ≠ [] ∨ T ≠ [])
    (hts : ∀ c ∈ ts, c ≠ '\n')
    (hh : headerTime ('#' :: '#' :: ' ' :: ts) = some ts2) :
    parseEntries (strip ('\n' :: (B ++ entryBlock ts C (some T)))) D =
      parseEntries B D ++ [⟨D ++ ' ' :: ts2, C, T⟩] := by
  obtain ⟨d, hd1, hd2⟩ := blockTail_last C T hC1 hT hne
  have hCtagne : C ++ tagPart T ≠ [] := by
    intro he
    rw [he] at hd1
    simp at hd1
  have htail_last : ('\n' :: '\n' :: (C ++ tagPart T)).getLast? = some d := by
    rw [getLast?_cons_of_ne_nil (by simp [hCtagne]),
      getLast?_cons_of_ne_nil hCtagne]
    exact hd1
  have hS_last : (ts ++ '\n' :: '\n' :: (C ++ tagPart T)).getLast? = some d := by
    rw [List.getLast?_append, htail_last]
    rfl
  have hhdr_no_nl : ∀ c ∈ ('#' :: '#' :: ' ' :: ts : Str), c ≠ '\n' := by
    intro c hc
    rcases List.mem_cons.mp hc with h | h
    · rw [h]; decide
    · rcases List.mem_cons.mp h with h | h
      · rw [h]; decide
      · rcases List.mem_cons.mp h with h | h
        · rw [h]; decide
        · exact hts c h
  have hsplitS : splitOnChar '\n'
      ('#' :: '#' :: ' ' :: (ts ++ '\n' :: '\n' :: (C ++ tagPart T))) =
      ('#' :: '#' :: ' ' :: ts) :: [] :: splitOnChar '\n' (C ++ tagPart T) := by
    rw [show ('#' :: '#' :: ' ' :: (ts ++ '\n' :: '\n' :: (C ++ tagPart T)) : Str) =
      ('#' :: '#' :: ' ' :: ts) ++ '\n' :: ('\n' :: (C ++ tagPart T)) from by simp]
    rw [splitOnChar_append]
    rw [splitOnChar_no_sep '\n' _ hhdr_no_nl]
    rw [show splitOnChar '\n' ('\n' :: (C ++ tagPart T)) =
      [] :: splitOnChar '\n' (C ++ tagPart T) from by simp [splitOnChar]]
    rfl
  have hZ := sectionLines_no_header C T hC3 hT
  have hmk := mkEntry_section D ts2 C T hC1 hC2 hT hne
  unfold splitNL at hmk
  cases B with
  | nil =>
    rw [List.nil_append, entryBlock_shape]
    rw [strip_cons_ws _ (by decide), strip_cons_ws _ (by decide),
      strip_cons_ws _ (by decide)]
    have hinner : strip ('#' :: '#' :: ' ' ::
        (ts ++ '\n' :: '\n' :: (C ++ tagPart T))) =
        '#' :: '#' :: ' ' :: (ts ++ '\n' :: '\n' :: (C ++ tagPart T)) := by
      unfold strip
      rw [lstrip_cons_not_space _ (by decide)]
      apply rstrip_eq_self (c := d) _ hd2
      rw [getLast?_cons_of_ne_nil (by simp),
        getLast?_cons_of_ne_nil (by simp),
        getLast?_cons_of_ne_nil (by simp [hCtagne])]
      exact hS_last
    rw [hinner]
    show entriesOfLines D (splitOnChar '\n'
      ('#' :: '#' :: ' ' :: (ts ++ '\n' :: '\n' :: (C ++ tagPart T)))) = _
    rw [hsplitS]
    have h9 := (entriesOfLines_cons_nil D
      (('#' :: '#' :: ' ' :: ts) :: [] :: splitOnChar '\n' (C ++ tagPart T))).symm
    rw [h9]
    have h10 := entriesOfLines_append D ('#' :: '#' :: ' ' :: ts) ts2
      [] (splitOnChar '\n' (C ++ tagPart T)) hh hZ
    rw [List.nil_append] at h10
    rw [h10, hmk]
    rw [parseEntries_nil]
    rfl
  | cons b B2 =>
    have hbns : isSpaceChar b = false := strip_head_not_space hB
    have hblast : (entryBlock ts C (some T)).getLast? = some d := by
      rw [entryBlock_shape]
      rw [getLast?_cons_of_ne_nil (by simp),
        getLast?_cons_of_ne_nil (by simp),
        getLast?_cons_of_ne_nil (by simp),
        getLast?_cons_of_ne_nil (by simp),
        getLast?_cons_of_ne_nil (by simp [hCtagne])]
      exact hS_last
    have hstrip1 : strip ('\n' :: ((b :: B2) ++ entryBlock ts C (some T))) =
        (b :: B2) ++ entryBlock ts C (some T) := by
      rw [strip_cons_ws _ (by decide)]
      unfold strip
      have hl : lstrip ((b :: B2) ++ entryBlock ts C (some T)) =
          (b :: B2) ++ entryBlock ts C (some T) :=
        lstrip_cons_not_space _ hbns
      rw [hl]
      apply rstrip_eq_self (c := d) _ hd2
      rw [List.getLast?_append, hblast]
      rfl
    rw [hstrip1]
    show entriesOfLines D
      (splitOnChar '\n' ((b :: B2) ++ entryBlock ts C (some T))) = _
    rw [entryBlock_shape]
    rw [splitOnChar_append (x := b :: B2)]
    rw [show splitOnChar '\n'
      ('\n' :: '#' :: '#' :: ' ' :: (ts ++ '\n' :: '\n' :: (C ++ tagPart T))) =
      [] :: splitOnChar '\n'
        ('#' :: '#' :: ' ' :: (ts ++ '\n' :: '\n' :: (C ++ tagPart T)))
      from by simp [splitOnChar]]
    rw [hsplitS]
    rw [entriesOfLines_append D ('#' :: '#' :: ' ' :: ts) ts2
      (splitOnChar '\n' (b :: B2)) (splitOnChar '\n' (C ++ tagPart T)) hh hZ]
    rw [hmk]
    rfl

/-!
Frontmatter split: reading back a file that starts with a built
frontmatter block cuts it exactly at the written delimiters, provided the
text between them introduces no stray `---`.
-/

theorem hasSub_of_prefix {pat s : Str} (h : pat.isPrefixOf s = true) :
    hasSub pat s = true := by
  cases s with
  | nil =>
    have : pat = [] := by
      cases pat with
      | nil => rfl
      | cons a t => simp [List.isPrefixOf] at h
    rw [this]
    rfl
  | cons c rest => simp [hasSub, h]

theorem splitFirst_self_prefix (sep r : Str) (hsep : sep ≠ []) :
    splitFirst sep (sep ++ r) = some ([], r) := by
  cases sep with
  | nil => simp at hsep
  | cons a sep2 =>
    rw [List.cons_append, splitFirst]
    rw [if_pos (List.isPrefixOf_iff_prefix.mpr ⟨r, by simp⟩)]
    show some ([], List.drop (a :: sep2).length ((a :: sep2) ++ r)) = some ([], r)
    rw [List.drop_left]

theorem splitFirst_dashes (mid block : Str)
    (hsafe : hasSub ['-', '-', '-'] (mid ++ ['-', '-']) = false) :
    splitFirst "---".toList (mid ++ '-' :: '-' :: '-' :: block) =
      some (mid, block) := by
  induction mid with
  | nil =>
    exact splitFirst_self_prefix "---".toList block (by simp)
  | cons c m2 ih =>
    have hsafe2 : hasSub ['-', '-', '-'] (m2 ++ ['-', '-']) = false := by
      have hstep : hasSub ['-', '-', '-'] ((c :: m2) ++ ['-', '-']) =
          ((['-', '-', '-'] : Str).isPrefixOf (c :: (m2 ++ ['-', '-'])) ||
            hasSub ['-', '-', '-'] (m2 ++ ['-', '-'])) := rfl
      rw [hstep] at hsafe
      exact (Bool.or_eq_false_iff.mp hsafe).2
    have hnopre : (['-', '-', '-'] : Str).isPrefixOf
        (c :: (m2 ++ '-' :: '-' :: '-' :: block)) = false := by
      cases hpre : (['-', '-', '-'] : Str).isPrefixOf
          (c :: (m2 ++ '-' :: '-' :: '-' :: block)) with
      | false => rfl
      | true =>
        exfalso
        obtain ⟨u, hu⟩ := List.isPrefixOf_iff_prefix.mp hpre
        have hu2 : '-' :: '-' :: '-' :: u =
            c :: (m2 ++ '-' :: '-' :: '-' :: block) := hu
        have hbad : hasSub ['-', '-', '-'] ((c :: m2) ++ ['-', '-']) = true := by
          cases m2 with
          | nil =>
            simp only [List.nil_append, List.cons.injEq] at hu2
            obtain ⟨hc, _⟩ := hu2
            rw [← hc]
            decide
          | cons x m3 =>
            cases m3 with
            | nil =>
              simp only [List.cons_append, List.nil_append, List.cons.injEq] at hu2
              obtain ⟨hc, hx, _⟩ := hu2
              rw [← hc, ← hx]
              decide
            | cons y m4 =>
              simp only [List.cons_append, List.cons.injEq] at hu2
              obtain ⟨hc, hx, hy, _⟩ := hu2
              rw [← hc, ← hx, ← hy]
              apply hasSub_of_prefix
              simp [List.isPrefixOf]
        rw [hbad] at hsafe
        simp at hsafe
    have hnopreS : ("---".toList).isPrefixOf
        (c :: (m2 ++ '-' :: '-' :: '-' :: block)) = false := hnopre
    show splitFirst "---".toList
      (c :: (m2 ++ '-' :: '-' :: '-' :: block)) = some (c :: m2, block)
    rw [splitFirst]
    rw [if_neg (by simp only [hnopreS]; decide)]
    rw [ih hsafe2]

theorem parseFrontmatter_built (mid rest : Str) (hsafe : dashSafe mid = true) :
    parseFrontmatter ('-' :: '-' :: '-' :: (mid ++ '-' :: '-' :: '-' :: rest)) =
      ((splitNL (strip mid)).foldl fmLine [], strip rest) := by
  have hsafeL : hasSub ['-', '-', '-'] (mid ++ ['-', '-']) = false := by
    unfold dashSafe at hsafe
    simp only [Bool.not_eq_true'] at hsafe
    exact hsafe
  unfold parseFrontmatter
  rw [if_neg (by simp [List.isPrefixOf])]
  have h1 : splitFirst "---".toList
      ('-' :: '-' :: '-' :: (mid ++ '-' :: '-' :: '-' :: rest)) =
      some ([], mid ++ '-' :: '-' :: '-' :: rest) :=
    splitFirst_self_prefix "---".toList (mid ++ '-' :: '-' :: '-' :: rest)
      (by simp)
  rw [h1]
  dsimp only
  rw [splitFirst_dashes mid rest hsafeL]


/-!
Datetime formatting and parsing lemmas.
-/

theorem digitCh_toNat (d : Nat) : (digitCh d).toNat = 48 + d % 10 := by
  unfold digitCh
  have h : d % 10 < 10 := Nat.mod_lt _ (by omega)
  generalize hk : d % 10 = k
  rw [hk] at h
  interval_cases k <;> decide

theorem digitCh_isDigit (d : Nat) : isDigitCh (digitCh d) = true := by
  have h := digitCh_toNat d
  have h2 : d % 10 < 10 := Nat.mod_lt _ (by omega)
  simp only [isDigitCh, h, Bool.and_eq_true, decide_eq_true_eq]
  omega

theorem digitCh_not_dash (d : Nat) : digitCh d ≠ '-' := by
  intro he
  have h := digitCh_toNat d
  rw [he] at h
  have h2 : d % 10 < 10 := Nat.mod_lt _ (by omega)
  simp at h
  omega

theorem digitCh_not_nl (d : Nat) : digitCh d ≠ '\n' := by
  intro he
  have h := digitCh_toNat d
  rw [he] at h
  simp at h
  omega

theorem digitCh_not_space (d : Nat) : isSpaceChar (digitCh d) = false := by
  have h := digitCh_toNat d
  have h2 : d % 10 < 10 := Nat.mod_lt _ (by omega)
  simp only [isSpaceChar, h, Bool.or_eq_false_iff, Bool.and_eq_false_iff,
    decide_eq_false_iff_not]
  omega

theorem digitCh_tagChar (d : Nat) : isTagChar (digitCh d) = true :=
  digit_tagChar (digitCh_isDigit d)

theorem natOfDigits_pad2 (n : Nat) (h : n ≤ 99) : natOfDigits (pad2 n) = n := by
  unfold pad2 natOfDigits
  simp only [List.foldl, digitCh_toNat]
  omega

theorem natOfDigits_pad4 (n : Nat) (h : n ≤ 9999) : natOfDigits (pad4 n) = n := by
  unfold pad4 natOfDigits
  simp only [List.foldl, digitCh_toNat]
  omega

theorem pad2_all_digit (n : Nat) : ∀ c ∈ pad2 n, isDigitCh c = true := by
  intro c hc
  unfold pad2 at hc
  rcases List.mem_cons.mp hc with h | h
  · rw [h]; exact digitCh_isDigit _
  · rcases List.mem_cons.mp h with h | h
    · rw [h]; exact digitCh_isDigit _
    · simp at h

theorem pad4_all_digit (n : Nat) : ∀ c ∈ pad4 n, isDigitCh c = true := by
  intro c hc
  unfold pad4 at hc
  rcases List.mem_cons.mp hc with h | h
  · rw [h]; exact digitCh_isDigit _
  · rcases List.mem_cons.mp h with h | h
    · rw [h]; exact digitCh_isDigit _
    · rcases List.mem_cons.mp h with h | h
      · rw [h]; exact digitCh_isDigit _
      · rcases List.mem_cons.mp h with h | h
        · rw [h]; exact digitCh_isDigit _
        · simp at h

theorem validDT_fields {dt : DateTime} (h : validDT dt = true) :
    1 ≤ dt.year ∧ dt.year ≤ 9999 ∧ 1 ≤ dt.month ∧ dt.month ≤ 12 ∧
      1 ≤ dt.day ∧ dt.day ≤ daysInMonth dt.year dt.month ∧
      dt.hour ≤ 23 ∧ dt.minute ≤ 59 ∧ dt.second ≤ 59 := by
  simp only [validDT, validDate, Bool.and_eq_true, decide_eq_true_eq] at h
  exact ⟨h.1.1.1.1.1.1.1.1, h.1.1.1.1.1.1.1.2, h.1.1.1.1.1.1.2, h.1.1.1.1.1.2,
    h.1.1.1.1.2, h.1.1.1.2, h.1.1.2, h.1.2, h.2⟩

theorem pad2_len (n : Nat) : (pad2 n).length = 2 := rfl

theorem parseYMD_format {dt : DateTime} (rest : Str) (h : validDT dt = true)
    (hrest : ∀ c, rest.head? = some c → isDigitCh c = false) :
    parseYMD (formatDate dt ++ rest) =
      some ((dt.year, dt.month, dt.day), rest) := by
  obtain ⟨hy1, hy2, hm1, hm2, hd1, hd2, h7, h8, h9⟩ := validDT_fields h
  have hdim : daysInMonth dt.year dt.month ≤ 31 := by
    unfold daysInMonth
    rcases dt.month with _ | _ | _ | _ | _ | _ | _ | _ | _ | _ | _ | _ | m <;>
      simp <;> split <;> omega
  have hX : (formatDate dt ++ rest : Str) =
      digitCh (dt.year / 1000) :: digitCh (dt.year / 100) ::
        digitCh (dt.year / 10) :: digitCh dt.year ::
        '-' :: (pad2 dt.month ++ '-' :: (pad2 dt.day ++ rest)) := by
    simp [formatDate, pad4]
  have htw4 : List.takeWhile isDigitCh (digitCh (dt.year / 1000) ::
      digitCh (dt.year / 100) :: digitCh (dt.year / 10) :: digitCh dt.year ::
      '-' :: (pad2 dt.month ++ '-' :: (pad2 dt.day ++ rest))) =
      [digitCh (dt.year / 1000), digitCh (dt.year / 100),
        digitCh (dt.year / 10), digitCh dt.year] := by
    rw [List.takeWhile_cons_of_pos (digitCh_isDigit _),
      List.takeWhile_cons_of_pos (digitCh_isDigit _),
      List.takeWhile_cons_of_pos (digitCh_isDigit _),
      List.takeWhile_cons_of_pos (digitCh_isDigit _),
      List.takeWhile_cons_of_neg (by decide)]
  have hmtw := (takeWhile_run (p := isDigitCh) (t := pad2 dt.month) (c := '-')
    (r := pad2 dt.day ++ rest) (pad2_all_digit _) (by decide)).1
  have hdtw : (pad2 dt.day ++ rest).takeWhile isDigitCh = pad2 dt.day := by
    rcases hr : rest with _ | ⟨rc, rrest⟩
    · rw [List.append_nil]; exact takeWhile_all (pad2_all_digit _)
    · exact (takeWhile_run (pad2_all_digit _) (hrest rc (by rw [hr]; rfl))).1
  have hy : natOfDigits [digitCh (dt.year / 1000), digitCh (dt.year / 100),
      digitCh (dt.year / 10), digitCh dt.year] = dt.year :=
    natOfDigits_pad4 dt.year (by omega)
  have hnodig : natOfDigits (pad2 dt.month) = dt.month :=
    natOfDigits_pad2 _ (by omega)
  have hnodig2 : natOfDigits (pad2 dt.day) = dt.day :=
    natOfDigits_pad2 _ (by omega)
  have hdrp1 : (pad2 dt.month ++ '-' :: (pad2 dt.day ++ rest)).drop 2 =
      '-' :: (pad2 dt.day ++ rest) := rfl
  have hdrp2 : (pad2 dt.day ++ rest).drop 2 = rest := rfl
  have hmc : (decide (dt.month < 1) || decide (12 < dt.month)) = false := by
    simp only [Bool.or_eq_false_iff, decide_eq_false_iff_not]
    omega
  have hdc : (decide (dt.day < 1) || decide (31 < dt.day)) = false := by
    simp only [Bool.or_eq_false_iff, decide_eq_false_iff_not]
    omega
  rw [hX]
  unfold parseYMD
  simp only [htw4, List.length_cons, List.length_nil, List.drop_succ_cons,
    List.drop_zero, List.head?_cons, List.tail_cons, hmtw, hdtw, pad2_len,
    hdrp1, hdrp2, hy, hnodig, hnodig2, hmc, hdc]
  simp

theorem parseHMS_parts (a b c : Nat) (rest : Str)
    (ha : a ≤ 23) (hb : b ≤ 59) (hc : c ≤ 59)
    (hrest : ∀ ch, rest.head? = some ch → isDigitCh ch = false) :
    parseHMS (pad2 a ++ ':' :: (pad2 b ++ ':' :: (pad2 c ++ rest))) =
      some ((a, b, c), rest) := by
  have htw1 := (takeWhile_run (p := isDigitCh) (t := pad2 a) (c := ':')
    (r := pad2 b ++ ':' :: (pad2 c ++ rest)) (pad2_all_digit _) (by decide)).1
  have htw2 := (takeWhile_run (p := isDigitCh) (t := pad2 b) (c := ':')
    (r := pad2 c ++ rest) (pad2_all_digit _) (by decide)).1
  have htw3 : (pad2 c ++ rest).takeWhile isDigitCh = pad2 c := by
    rcases hr : rest with _ | ⟨rc, rrest⟩
    · rw [List.append_nil]; exact takeWhile_all (pad2_all_digit _)
    · exact (takeWhile_run (pad2_all_digit _) (hrest rc (by rw [hr]; rfl))).1
  have hna : natOfDigits (pad2 a) = a := natOfDigits_pad2 _ (by omega)
  have hnb : natOfDigits (pad2 b) = b := natOfDigits_pad2 _ (by omega)
  have hnc : natOfDigits (pad2 c) = c := natOfDigits_pad2 _ (by omega)
  have hdr1 : (pad2 a ++ ':' :: (pad2 b ++ ':' :: (pad2 c ++ rest))).drop 2 =
      ':' :: (pad2 b ++ ':' :: (pad2 c ++ rest)) := rfl
  have hdr2 : (pad2 b ++ ':' :: (pad2 c ++ rest)).drop 2 =
      ':' :: (pad2 c ++ rest) := rfl
  have hdr3 : (pad2 c ++ rest).drop 2 = rest := rfl
  have hac : ¬ 23 < a := by omega
  have hbc : ¬ 59 < b := by omega
  have hcc : ¬ 59 < c := by omega
  unfold parseHMS
  simp only [htw1, htw2, htw3, pad2_len, hdr1, hdr2, hdr3, hna, hnb, hnc,
    List.head?_cons, List.tail_cons, hac, hbc, hcc]
  simp

theorem strptimeFull_parts (d0 : DateTime) (a b c : Nat)
    (h : validDT d0) (ha : a ≤ 23) (hb : b ≤ 59) (hc : c ≤ 59) :
    strptimeFull (formatDate d0 ++ ' ' ::
        (pad2 a ++ ':' :: (pad2 b ++ ':' :: pad2 c))) =
      some ⟨d0.year, d0.month, d0.day, a, b, c⟩ := by
  have hymd := @parseYMD_format d0
    (' ' :: (pad2 a ++ ':' :: (pad2 b ++ ':' :: pad2 c))) h
    (by intro ch hch; simp at hch; rw [← hch]; decide)
  have hval : validDate d0.year d0.month d0.day = true := by
    obtain ⟨h1, h2, h3, h4, h5, h6, _, _, _⟩ := validDT_fields h
    simp only [validDate, Bool.and_eq_true, decide_eq_true_eq]
    omega
  have hhms : parseHMS (pad2 a ++ ':' :: (pad2 b ++ ':' :: (pad2 c ++ []))) =
      some ((a, b, c), []) :=
    parseHMS_parts a b c [] ha hb hc (by intro ch hch; simp at hch)
  rw [List.append_nil] at hhms
  unfold strptimeFull
  rw [hymd]
  simp only [List.head?_cons, List.tail_cons, hhms]
  simp [hval]

theorem strptimeDate_format (dt : DateTime) (h : validDT dt = true) :
    strptimeDate (formatDate dt) = some (dayStart dt) := by
  have hymd := @parseYMD_format dt [] h (by intro ch hch; simp at hch)
  rw [List.append_nil] at hymd
  have hval : validDate dt.year dt.month dt.day = true := by
    obtain ⟨h1, h2, h3, h4, h5, h6, _, _, _⟩ := validDT_fields h
    simp only [validDate, Bool.and_eq_true, decide_eq_true_eq]
    omega
  unfold strptimeDate
  rw [hymd]
  simp [hval, dayStart]

theorem strptimeFull_entryDt (dt : DateTime) (h : validDT dt = true) :
    strptimeFull (entryDtStr dt) =
      some ⟨dt.year, dt.month, dt.day, dt.hour, dt.minute, 0⟩ := by
  obtain ⟨_, _, _, _, _, _, h7, h8, _⟩ := validDT_fields h
  have hp := strptimeFull_parts dt dt.hour dt.minute 0 h h7 h8 (by omega)
  have hshape : entryDtStr dt = formatDate dt ++ ' ' ::
      (pad2 dt.hour ++ ':' :: (pad2 dt.minute ++ ':' :: pad2 0)) := by
    unfold entryDtStr
    simp
    rfl
  rw [hshape, hp]

theorem strptimeFull_format (dt : DateTime) (h : validDT dt = true) :
    strptimeFull (formatFull dt) = some dt := by
  obtain ⟨_, _, _, _, _, _, h7, h8, h9⟩ := validDT_fields h
  have hp := strptimeFull_parts dt dt.hour dt.minute dt.second h h7 h8 h9
  have hshape : formatFull dt = formatDate dt ++ ' ' ::
      (pad2 dt.hour ++ ':' :: (pad2 dt.minute ++ ':' :: pad2 dt.second)) := by
    unfold formatFull formatHM
    simp
  rw [hshape, hp]

theorem parseHMS_bounds {r : Str} {h3 mi sec : Nat} {rest2 : Str}
    (hp : parseHMS r = some ((h3, mi, sec), rest2)) :
    h3 ≤ 23 ∧ mi ≤ 59 ∧ sec ≤ 59 := by
  simp only [parseHMS] at hp
  split at hp
  · simp at hp
  · split at hp
    · simp at hp
    · split at hp
      · simp at hp
      · split at hp
        · simp at hp
        · split at hp
          · simp at hp
          · split at hp
            · simp at hp
            · split at hp
              · simp at hp
              · split at hp
                · simp at hp
                · simp only [Option.some_inj, Prod.mk.injEq] at hp
                  obtain ⟨⟨hh, hmi, hsec⟩, _⟩ := hp
                  rw [← hh, ← hmi, ← hsec]
                  omega

theorem strptimeFull_valid {s : Str} {dt : DateTime}
    (hp : strptimeFull s = some dt) : validDT dt = true := by
  unfold strptimeFull at hp
  split at hp
  · rename_i y m d rest heq
    split at hp
    · simp at hp
    · split at hp
      · rename_i h3 mi sec r2 heq2
        split at hp
        · split at hp
          · rename_i hval
            simp only [Option.some_inj] at hp
            obtain ⟨hb1, hb2, hb3⟩ := parseHMS_bounds heq2
            rw [← hp]
            simp only [validDT, Bool.and_eq_true, decide_eq_true_eq]
            exact ⟨⟨⟨hval, by omega⟩, by omega⟩, by omega⟩
          · simp at hp
        · simp at hp
      · simp at hp
  · simp at hp

theorem dtLE_dayStart (y m d hh mi : Nat) :
    dtLE ⟨y, m, d, 0, 0, 0⟩ ⟨y, m, d, hh, mi, 0⟩ = true := by
  simp only [dtLE, dtTuple, natListLE, Nat.lt_irrefl, if_false]
  by_cases h1 : 0 < hh
  · simp [h1]
  · have hz : hh = 0 := by omega
    subst hz
    simp only [Nat.lt_irrefl, if_false]
    by_cases h2 : 0 < mi
    · simp [h2]
    · have hz2 : mi = 0 := by omega
      subst hz2
      simp [natListLE]

theorem dtLE_dayEnd (y m d hh mi : Nat) (hh23 : hh ≤ 23) (hmi59 : mi ≤ 59) :
    dtLE ⟨y, m, d, hh, mi, 0⟩ ⟨y, m, d, 23, 59, 59⟩ = true := by
  simp only [dtLE, dtTuple, natListLE, Nat.lt_irrefl, if_false]
  by_cases h1 : hh < 23
  · simp [h1]
  · have hz : hh = 23 := by omega
    subst hz
    simp only [Nat.lt_irrefl, if_false]
    by_cases h2 : mi < 59
    · simp [h2]
    · have hz2 : mi = 59 := by omega
      subst hz2
      simp [natListLE]

/-!
Store and path lemmas.
-/

theorem fsRead_write (fs : FS) (p c : Str) :
    fsRead (fsWrite fs p c) p = some c := by
  unfold fsWrite
  by_cases h : (fs.find? fun kv => kv.1 = p).isSome
  · rw [if_pos h]
    unfold fsRead
    induction fs with
    | nil => simp at h
    | cons kv rest ih =>
      by_cases hk : kv.1 = p
      · simp [List.find?, hk]
      · have h2 : (rest.find? fun kv => kv.1 = p).isSome := by
          simp only [List.find?_cons] at h
          rcases hfk : (decide (kv.1 = p)) with _ | _
          · rw [hfk] at h; exact h
          · simp at hfk; exact absurd hfk hk
        have := ih h2
        simp only [List.map_cons, List.find?_cons, if_neg hk]
        rw [show (decide (kv.1 = p)) = false by simp [hk]]
        simpa using this
  · rw [if_neg h]
    unfold fsRead
    induction fs with
    | nil => simp [List.find?]
    | cons kv rest ih =>
      have hk : kv.1 ≠ p := by
        intro he
        apply h
        simp [List.find?_cons, he]
      have h2 : ¬ (rest.find? fun kv => kv.1 = p).isSome := by
        intro h3
        apply h
        simp only [List.find?_cons]
        rcases hfk : (decide (kv.1 = p)) with _ | _
        · exact h3
        · simp
      have := ih h2
      simp only [List.cons_append, List.find?_cons]
      rw [show (decide (kv.1 = p)) = false by simp [hk]]
      exact this

theorem fsWrite_nil (p c : Str) : fsWrite [] p c = [(p, c)] := by
  simp [fsWrite, List.find?]

theorem fsRead_single (p c : Str) : fsRead [(p, c)] p = some c := by
  simp [fsRead, List.find?]

theorem strLt_irrefl (s : Str) : strLt s s = false := by
  induction s with
  | nil => rfl
  | cons c rest ih => simp [strLt, ih]

theorem strLe_refl (s : Str) : strLe s s = true := by
  simp [strLe, strLt_irrefl]

theorem splitDash_formatDate (dt : DateTime) :
    splitOnChar '-' (formatDate dt) = [pad4 dt.year, pad2 dt.month, pad2 dt.day] := by
  have hshape : formatDate dt =
      pad4 dt.year ++ '-' :: (pad2 dt.month ++ '-' :: pad2 dt.day) := by
    simp [formatDate]
  rw [hshape, splitOnChar_append, splitOnChar_append]
  rw [splitOnChar_no_sep '-' (pad4 dt.year)
    (fun c hc => by
      have := pad4_all_digit dt.year c hc
      intro he
      rw [he] at this
      simp [isDigitCh] at this)]
  rw [splitOnChar_no_sep '-' (pad2 dt.month)
    (fun c hc => by
      have := pad2_all_digit dt.month c hc
      intro he
      rw [he] at this
      simp [isDigitCh] at this)]
  rw [splitOnChar_no_sep '-' (pad2 dt.day)
    (fun c hc => by
      have := pad2_all_digit dt.day c hc
      intro he
      rw [he] at this
      simp [isDigitCh] at this)]
  rfl

theorem getDiaryFile_formatDate (dir : Str) (dt : DateTime) :
    getDiaryFile dir (formatDate dt) =
      some (dir ++ '/' :: pad4 dt.year ++ '/' :: pad2 dt.month ++ '/' ::
        formatDate dt ++ ".md".toList) := by
  unfold getDiaryFile
  rw [splitDash_formatDate]

/-!
Frontmatter content: the `tags:` line written by `_build_frontmatter`
parses back to the same tag list.
-/

theorem getLast?_append_right {x y : Str} {d : Char} (h : y.getLast? = some d) :
    (x ++ y).getLast? = some d := by
  rw [List.getLast?_append, h]
  rfl

theorem getLastD_append_of_ne_nil {α : Type} (x : List α) {y : List α} (d : α)
    (h : y ≠ []) : (x ++ y).getLastD d = y.getLastD d := by
  rw [List.getLastD_eq_getLast?, List.getLastD_eq_getLast?, List.getLast?_append]
  cases hy : y.getLast? with
  | none => exact absurd (List.getLast?_eq_none_iff.mp hy) h
  | some a => rfl

theorem joinCommaSpace_cons_cons (t u : Str) (T2 : List Str) :
    joinCommaSpace (t :: u :: T2) = t ++ ',' :: ' ' :: joinCommaSpace (u :: T2) := by
  simp [joinCommaSpace, List.intercalate, List.intersperse]

theorem joinCommaSpace_single (t : Str) : joinCommaSpace [t] = t := by
  simp [joinCommaSpace, List.intercalate]

theorem joined_no_nl (ts : List Str) (hT : ∀ t ∈ ts, wfTag t = true) :
    ∀ c ∈ joinCommaSpace ts, c ≠ '\n' := by
  induction ts with
  | nil => simp [joinCommaSpace, List.intercalate]
  | cons t T2 ih =>
    obtain ⟨ht1, ht2⟩ := wfTag_fields (hT t (by simp))
    intro c hc
    cases T2 with
    | nil =>
      rw [joinCommaSpace_single] at hc
      exact tagChar_ne_nl (ht2 c hc)
    | cons u T3 =>
      rw [joinCommaSpace_cons_cons] at hc
      rcases List.mem_append.mp hc with h | h
      · exact tagChar_ne_nl (ht2 c h)
      · rcases List.mem_cons.mp h with h2 | h2
        · rw [h2]; decide
        · rcases List.mem_cons.mp h2 with h3 | h3
          · rw [h3]; decide
          · exact ih (fun x hx => hT x (by simp [hx])) c h3

theorem wordRuns_cons_not_tag {c : Char} (rest : Str) (h : isTagChar c = false) :
    wordRuns (c :: rest) = wordRuns rest := by
  rw [wordRuns]
  simp [h]

theorem wordRuns_nil : wordRuns [] = [] := by rw [wordRuns]

theorem wordRuns_join (ts : List Str) (hT : ∀ t ∈ ts, wfTag t = true) :
    wordRuns (joinCommaSpace ts ++ [']']) = ts := by
  induction ts with
  | nil =>
    rw [show joinCommaSpace [] = [] from rfl, List.nil_append]
    rw [wordRuns_cons_not_tag [] (by decide), wordRuns_nil]
  | cons t T2 ih =>
    obtain ⟨ht1, ht2⟩ := wfTag_fields (hT t (by simp))
    obtain ⟨tc, t2, htc⟩ : ∃ tc t2, t = tc :: t2 := by
      cases t with
      | nil => simp at ht1
      | cons a b => exact ⟨a, b, rfl⟩
    subst htc
    have htagc : isTagChar tc = true := ht2 tc (by simp)
    have ht2' : ∀ c ∈ t2, isTagChar c = true := fun c hc => ht2 c (by simp [hc])
    cases T2 with
    | nil =>
      rw [joinCommaSpace_single]
      show wordRuns (tc :: (t2 ++ [']'])) = [tc :: t2]
      rw [wordRuns]
      simp only [htagc, if_true]
      have hrun := takeWhile_run (t := t2) (c := ']') (r := ([] : Str)) ht2' (by decide)
      rw [hrun.1, hrun.2]
      rw [wordRuns_cons_not_tag [] (by decide), wordRuns_nil]
    | cons u T3 =>
      rw [joinCommaSpace_cons_cons]
      have hsh : ((tc :: t2) ++ ',' :: ' ' :: joinCommaSpace (u :: T3)) ++ [']'] =
          tc :: (t2 ++ ',' :: (' ' :: (joinCommaSpace (u :: T3) ++ [']']))) := by
        simp
      rw [hsh, wordRuns]
      simp only [htagc, if_true]
      have hrun := takeWhile_run (t := t2)
        (c := ',') (r := ' ' :: (joinCommaSpace (u :: T3) ++ [']'])) ht2' (by decide)
      rw [hrun.1, hrun.2]
      rw [wordRuns_cons_not_tag _ (by decide), wordRuns_cons_not_tag _ (by decide)]
      rw [ih (fun x hx => hT x (by simp [hx]))]

theorem fmInner_shape (nowStr date : Str) (tags : List Str) :
    fmInner nowStr date tags =
      '\n' :: ((("date: ".toList ++ date) ++
        '\n' :: (("modification_date: ".toList ++ nowStr) ++
          '\n' :: ("tags: [".toList ++ (joinCommaSpace tags ++ [']'])))) ++ ['\n']) := by
  simp [fmInner]

theorem fmInner_strip_split (nowStr date : Str) (tags : List Str)
    (hd1 : ∀ c ∈ date, c ≠ '\n') (hn1 : ∀ c ∈ nowStr, c ≠ '\n')
    (hT : ∀ t ∈ tags, wfTag t = true) :
    splitNL (strip (fmInner nowStr date tags)) =
      ["date: ".toList ++ date,
       "modification_date: ".toList ++ nowStr,
       "tags: [".toList ++ (joinCommaSpace tags ++ [']'])] := by
  have hl3 : ("tags: [".toList ++ (joinCommaSpace tags ++ [']'])).getLast? =
      some ']' := by
    apply getLast?_append_right
    apply getLast?_append_right
    rfl
  have hlast : (("date: ".toList ++ date) ++
      '\n' :: (("modification_date: ".toList ++ nowStr) ++
        '\n' :: ("tags: [".toList ++ (joinCommaSpace tags ++ [']'])))).getLast? =
      some ']' := by
    apply getLast?_append_right
    rw [getLast?_cons_of_ne_nil (by simp)]
    apply getLast?_append_right
    rw [getLast?_cons_of_ne_nil (by simp)]
    exact hl3
  have hstripM : strip (("date: ".toList ++ date) ++
      '\n' :: (("modification_date: ".toList ++ nowStr) ++
        '\n' :: ("tags: [".toList ++ (joinCommaSpace tags ++ [']'])))) =
      ("date: ".toList ++ date) ++
        '\n' :: (("modification_date: ".toList ++ nowStr) ++
          '\n' :: ("tags: [".toList ++ (joinCommaSpace tags ++ [']']))) := by
    apply strip_cons_ends (by decide)
    intro e he
    have h3 : some e = some ']' := he.symm.trans hlast
    injection h3 with h4
    subst h4
    decide
  rw [fmInner_shape, strip_cons_ws _ (by decide), strip_append_nl, hstripM]
  have hlit1 : ∀ c ∈ ("date: ".toList : Str), c ≠ '\n' := by decide
  have hlit2 : ∀ c ∈ ("modification_date: ".toList : Str), c ≠ '\n' := by decide
  have hlit3 : ∀ c ∈ ("tags: [".toList : Str), c ≠ '\n' := by decide
  have h1 : ∀ c ∈ "date: ".toList ++ date, c ≠ '\n' := fun c hc =>
    (List.mem_append.mp hc).elim (hlit1 c) (hd1 c)
  have h2 : ∀ c ∈ "modification_date: ".toList ++ nowStr, c ≠ '\n' := fun c hc =>
    (List.mem_append.mp hc).elim (hlit2 c) (hn1 c)
  have h3 : ∀ c ∈ "tags: [".toList ++ (joinCommaSpace tags ++ [']']), c ≠ '\n' := by
    intro c hc
    rcases List.mem_append.mp hc with h | h
    · exact hlit3 c h
    · rcases List.mem_append.mp h with h4 | h4
      · exact joined_no_nl tags hT c h4
      · rcases List.mem_singleton.mp h4 with h5
        rw [h5]
        decide
  show splitOnChar '\n' _ = _
  rw [splitOnChar_append, splitOnChar_append,
    splitOnChar_no_sep '\n' _ h1, splitOnChar_no_sep '\n' _ h2,
    splitOnChar_no_sep '\n' _ h3]
  rfl

theorem fmLine_date (d : List (Str × FMVal)) (date : Str) :
    fmLine d ("date: ".toList ++ date) =
      dictInsert "date".toList (.str (strip date)) d := by
  have hcont : ("date: ".toList ++ date).contains ':' = true :=
    List.elem_eq_true_of_mem (List.mem_append.mpr (Or.inl (by decide)))
  have h1 : ("date: ".toList ++ date).takeWhile (· ≠ ':') = "date".toList :=
    (takeWhile_run (t := "date".toList) (c := ':') (r := ' ' :: date)
      (by decide) (by decide)).1
  have h2 : ("date: ".toList ++ date).dropWhile (· ≠ ':') = ':' :: (' ' :: date) :=
    (takeWhile_run (t := "date".toList) (c := ':') (r := ' ' :: date)
      (by decide) (by decide)).2
  simp only [fmLine, hcont, if_true, h1, h2]
  rw [show ((':' :: (' ' :: date) : Str)).drop 1 = ' ' :: date from rfl]
  rw [strip_cons_ws _ (by decide)]
  rw [show strip ("date".toList : Str) = "date".toList from by decide]
  rw [if_neg (by simp)]

theorem fmLine_mod (d : List (Str × FMVal)) (nowStr : Str) :
    fmLine d ("modification_date: ".toList ++ nowStr) =
      dictInsert "modification_date".toList (.str (strip nowStr)) d := by
  have hcont : ("modification_date: ".toList ++ nowStr).contains ':' = true :=
    List.elem_eq_true_of_mem (List.mem_append.mpr (Or.inl (by decide)))
  have h1 : ("modification_date: ".toList ++ nowStr).takeWhile (· ≠ ':') =
      "modification_date".toList :=
    (takeWhile_run (t := "modification_date".toList) (c := ':') (r := ' ' :: nowStr)
      (by decide) (by decide)).1
  have h2 : ("modification_date: ".toList ++ nowStr).dropWhile (· ≠ ':') =
      ':' :: (' ' :: nowStr) :=
    (takeWhile_run (t := "modification_date".toList) (c := ':') (r := ' ' :: nowStr)
      (by decide) (by decide)).2
  simp only [fmLine, hcont, if_true, h1, h2]
  rw [show ((':' :: (' ' :: nowStr) : Str)).drop 1 = ' ' :: nowStr from rfl]
  rw [strip_cons_ws _ (by decide)]
  rw [show strip ("modification_date".toList : Str) = "modification_date".toList
    from by decide]
  rw [if_neg (by simp)]

theorem fmLine_tags (d : List (Str × FMVal)) (tags : List Str)
    (hT : ∀ t ∈ tags, wfTag t = true) :
    fmLine d ("tags: [".toList ++ (joinCommaSpace tags ++ [']'])) =
      dictInsert "tags".toList (.tagList tags) d := by
  have hcont : ("tags: [".toList ++ (joinCommaSpace tags ++ [']'])).contains ':' =
      true :=
    List.elem_eq_true_of_mem (List.mem_append.mpr (Or.inl (by decide)))
  have h1 : ("tags: [".toList ++ (joinCommaSpace tags ++ [']'])).takeWhile
      (· ≠ ':') = "tags".toList :=
    (takeWhile_run (t := "tags".toList) (c := ':')
      (r := ' ' :: ('[' :: (joinCommaSpace tags ++ [']'])))
      (by decide) (by decide)).1
  have h2 : ("tags: [".toList ++ (joinCommaSpace tags ++ [']'])).dropWhile
      (· ≠ ':') = ':' :: (' ' :: ('[' :: (joinCommaSpace tags ++ [']']))) :=
    (takeWhile_run (t := "tags".toList) (c := ':')
      (r := ' ' :: ('[' :: (joinCommaSpace tags ++ [']'])))
      (by decide) (by decide)).2
  have hlastv : ('[' :: (joinCommaSpace tags ++ [']'])).getLast? = some ']' := by
    rw [getLast?_cons_of_ne_nil (by simp)]
    apply getLast?_append_right
    rfl
  have hval : strip ('[' :: (joinCommaSpace tags ++ [']'])) =
      '[' :: (joinCommaSpace tags ++ [']']) := by
    apply strip_cons_ends (by decide)
    intro e he
    have h6 : some e = some ']' := he.symm.trans hlastv
    injection h6 with h7
    subst h7
    decide
  simp only [fmLine, hcont, if_true, h1, h2]
  rw [show ((':' :: (' ' :: ('[' :: (joinCommaSpace tags ++ [']'])))) : Str).drop 1 =
    ' ' :: ('[' :: (joinCommaSpace tags ++ [']'])) from rfl]
  rw [strip_cons_ws _ (by decide), hval]
  rw [show strip ("tags".toList : Str) = "tags".toList from by decide]
  rw [if_pos (by simp)]
  rw [wordRuns_cons_not_tag _ (by decide), wordRuns_join tags hT]

theorem fmFold_built (date nowStr : Str) (tags : List Str)
    (hT : ∀ t ∈ tags, wfTag t = true) :
    (["date: ".toList ++ date,
      "modification_date: ".toList ++ nowStr,
      "tags: [".toList ++ (joinCommaSpace tags ++ [']'])].foldl fmLine []) =
      [("date".toList, FMVal.str (strip date)),
       ("modification_date".toList, FMVal.str (strip nowStr)),
       ("tags".toList, FMVal.tagList tags)] := by
  rw [List.foldl_cons, fmLine_date, List.foldl_cons, fmLine_mod,
    List.foldl_cons, fmLine_tags _ _ hT, List.foldl_nil]
  simp [dictInsert]

theorem dictFind_tags_built (v1 v2 : FMVal) (ts : List Str) :
    dictFind
      [("date".toList, v1), ("modification_date".toList, v2),
       ("tags".toList, FMVal.tagList ts)] "tags".toList =
      some (FMVal.tagList ts) := by
  simp [dictFind, List.find?]

theorem parseFrontmatter_full (nowStr date X : Str) (tags : List Str)
    (hsafe : dashSafe (fmInner nowStr date tags) = true)
    (hd1 : ∀ c ∈ date, c ≠ '\n') (hn1 : ∀ c ∈ nowStr, c ≠ '\n')
    (hT : ∀ t ∈ tags, wfTag t = true) :
    parseFrontmatter (buildFrontmatter nowStr date tags ++ X) =
      ([("date".toList, FMVal.str (strip date)),
        ("modification_date".toList, FMVal.str (strip nowStr)),
        ("tags".toList, FMVal.tagList tags)], strip X) := by
  have hshape : buildFrontmatter nowStr date tags ++ X =
      '-' :: '-' :: '-' :: (fmInner nowStr date tags ++ '-' :: '-' :: '-' :: X) := by
    simp [buildFrontmatter]
  rw [hshape, parseFrontmatter_built _ _ hsafe,
    fmInner_strip_split _ _ _ hd1 hn1 hT, fmFold_built _ _ _ hT]

theorem frontTags_built (nowStr date X : Str) (tags : List Str)
    (hsafe : dashSafe (fmInner nowStr date tags) = true)
    (hd1 : ∀ c ∈ date, c ≠ '\n') (hn1 : ∀ c ∈ nowStr, c ≠ '\n')
    (hT : ∀ t ∈ tags, wfTag t = true) :
    frontTags (buildFrontmatter nowStr date tags ++ X) = some tags := by
  unfold frontTags
  rw [parseFrontmatter_full nowStr date X tags hsafe hd1 hn1 hT]
  dsimp only
  rw [dictFind_tags_built]

/-!
Formatting facts used on the search and append paths.
-/

theorem digitCh_not_slash (d : Nat) : digitCh d ≠ '/' := by
  intro he
  have h := digitCh_toNat d
  rw [he] at h
  have h2 : d % 10 < 10 := Nat.mod_lt _ (by omega)
  simp at h
  omega

theorem headerTime_formatHM (dt : DateTime) :
    headerTime ('#' :: '#' :: ' ' :: formatHM dt) =
      some (pad2 dt.hour ++ ':' :: (pad2 dt.minute ++ [':', '0', '0'])) := by
  show headerTime ('#' :: '#' :: ' ' :: digitCh (dt.hour / 10) :: digitCh dt.hour ::
    ':' :: digitCh (dt.minute / 10) :: digitCh dt.minute :: []) = _
  rw [headerTime]
  rw [digitCh_isDigit, digitCh_isDigit, digitCh_isDigit, digitCh_isDigit]
  · rfl
  · intro s1 s2 rest2 hcon
    exact absurd hcon (by simp)

theorem pad2_no_nl (n : Nat) : ∀ c ∈ pad2 n, c ≠ '\n' := by
  intro c hc
  rcases List.mem_cons.mp hc with h | h
  · rw [h]; exact digitCh_not_nl _
  · rcases List.mem_cons.mp h with h2 | h2
    · rw [h2]; exact digitCh_not_nl _
    · simp at h2

theorem pad4_no_nl (n : Nat) : ∀ c ∈ pad4 n, c ≠ '\n' := by
  intro c hc
  have h2 : isDigitCh c = true := pad4_all_digit n c hc
  intro he
  rw [he] at h2
  simp [isDigitCh] at h2

theorem formatHM_no_nl (dt : DateTime) : ∀ c ∈ formatHM dt, c ≠ '\n' := by
  intro c hc
  unfold formatHM at hc
  rcases List.mem_append.mp hc with h | h
  · exact pad2_no_nl _ c h
  · rcases List.mem_cons.mp h with h2 | h2
    · rw [h2]; decide
    · exact pad2_no_nl _ c h2

theorem formatDate_chars (dt : DateTime) :
    ∀ c ∈ formatDate dt, isDigitCh c = true ∨ c = '-' := by
  intro c hc
  unfold formatDate at hc
  rcases List.mem_append.mp hc with h | h
  · rcases List.mem_append.mp h with h2 | h2
    · exact Or.inl (pad4_all_digit _ _ h2)
    · rcases List.mem_cons.mp h2 with h3 | h3
      · exact Or.inr h3
      · exact Or.inl (pad2_all_digit _ _ h3)
  · rcases List.mem_cons.mp h with h3 | h3
    · exact Or.inr h3
    · exact Or.inl (pad2_all_digit _ _ h3)

theorem digit_ne {c d : Char} (h : isDigitCh c = true)
    (hd : d.toNat < 48 ∨ 57 < d.toNat) : c ≠ d := by
  intro he
  rw [he] at h
  simp [isDigitCh] at h
  omega

theorem formatDate_no_nl (dt : DateTime) : ∀ c ∈ formatDate dt, c ≠ '\n' := by
  intro c hc
  rcases formatDate_chars dt c hc with h | h
  · exact digit_ne h (by decide)
  · rw [h]; decide

theorem formatFull_no_nl (dt : DateTime) : ∀ c ∈ formatFull dt, c ≠ '\n' := by
  intro c hc
  unfold formatFull at hc
  rcases List.mem_append.mp hc with h | h
  · rcases List.mem_append.mp h with h2 | h2
    · exact formatDate_no_nl _ c h2
    · rcases List.mem_cons.mp h2 with h3 | h3
      · rw [h3]; decide
      · exact formatHM_no_nl _ c h3
  · rcases List.mem_cons.mp h with h3 | h3
    · rw [h3]; decide
    · exact pad2_no_nl _ c h3

theorem formatDate_no_slash (dt : DateTime) : ∀ c ∈ formatDate dt, c ≠ '/' := by
  intro c hc
  rcases formatDate_chars dt c hc with h | h
  · exact digit_ne h (by decide)
  · rw [h]; decide

theorem validDT_dayStart {dt : DateTime} (h : validDT dt = true) :
    validDT (dayStart dt) = true := by
  simp only [validDT, dayStart, Bool.and_eq_true, decide_eq_true_eq] at h ⊢
  exact ⟨⟨⟨h.1.1.1, by omega⟩, by omega⟩, by omega⟩

theorem validDT_dayEnd {dt : DateTime} (h : validDT dt = true) :
    validDT (dayEnd dt) = true := by
  simp only [validDT, dayEnd, Bool.and_eq_true, decide_eq_true_eq] at h ⊢
  exact ⟨⟨⟨h.1.1.1, by omega⟩, by omega⟩, by omega⟩

theorem formatDate_dayStart (dt : DateTime) :
    formatDate (dayStart dt) = formatDate dt := rfl

theorem formatDate_dayEnd (dt : DateTime) :
    formatDate (dayEnd dt) = formatDate dt := rfl

theorem strptimeFull_formatDate_none (dt : DateTime) (h : validDT dt = true) :
    strptimeFull (formatDate dt) = none := by
  have hymd := @parseYMD_format dt [] h (by intro ch hch; simp at hch)
  rw [List.append_nil] at hymd
  unfold strptimeFull
  rw [hymd]
  simp

theorem parseDatetimeRange_defaults (now : DateTime) :
    parseDatetimeRange none none now = some (subDays now 30, now) := rfl

theorem parseDatetimeRange_dateOnly (now dt1 dt2 : DateTime)
    (h1 : validDT dt1 = true) (h2 : validDT dt2 = true) :
    parseDatetimeRange (some (formatDate dt1)) (some (formatDate dt2)) now =
      some (dayStart dt1, dayEnd dt2) := by
  simp only [parseDatetimeRange, strptimeFull_formatDate_none dt1 h1,
    strptimeFull_formatDate_none dt2 h2, strptimeDate_format dt1 h1,
    strptimeDate_format dt2 h2, Option.map_some]
  rfl

theorem parseDatetimeRange_full (now dt1 dt2 : DateTime)
    (h1 : validDT dt1 = true) (h2 : validDT dt2 = true) :
    parseDatetimeRange (some (formatFull dt1)) (some (formatFull dt2)) now =
      some (dt1, dt2) := by
  simp only [parseDatetimeRange, strptimeFull_format dt1 h1,
    strptimeFull_format dt2 h2]

/-!
Path lemmas: the single written file is found again by the search glob.
-/

theorem getDiaryFile_diaryPath (dir : Str) (dt : DateTime) :
    getDiaryFile dir (formatDate dt) = some (diaryPath dir dt) :=
  getDiaryFile_formatDate dir dt

theorem diaryPath_prefix (dir : Str) (dt : DateTime) :
    (dir ++ ['/']).isPrefixOf (diaryPath dir dt) = true := by
  rw [List.isPrefixOf_iff_prefix]
  exact ⟨pad4 dt.year ++ '/' :: pad2 dt.month ++ '/' ::
    formatDate dt ++ ".md".toList, by simp [diaryPath]⟩

theorem diaryPath_suffix (dir : Str) (dt : DateTime) :
    (".md".toList).isSuffixOf (diaryPath dir dt) = true := by
  rw [List.isSuffixOf_iff_suffix]
  exact ⟨dir ++ '/' :: pad4 dt.year ++ '/' :: pad2 dt.month ++ '/' ::
    formatDate dt, by simp [diaryPath]⟩

theorem mdName_no_slash (dt : DateTime) :
    ∀ c ∈ formatDate dt ++ ".md".toList, c ≠ '/' := by
  intro c hc
  rcases List.mem_append.mp hc with h | h
  · exact formatDate_no_slash dt c h
  · have hm : ∀ c ∈ (".md".toList : Str), c ≠ '/' := by decide
    exact hm c h

theorem lastComponent_diaryPath (dir : Str) (dt : DateTime) :
    lastComponent (diaryPath dir dt) = formatDate dt ++ ".md".toList := by
  have hsh : diaryPath dir dt =
      (dir ++ '/' :: pad4 dt.year ++ '/' :: pad2 dt.month) ++
        '/' :: (formatDate dt ++ ".md".toList) := by
    simp [diaryPath]
  unfold lastComponent
  rw [hsh, splitOnChar_append,
    getLastD_append_of_ne_nil _ _ (splitOnChar_ne_nil _ _),
    splitOnChar_no_sep '/' _ (mdName_no_slash dt)]
  rfl

theorem formatDate_len (dt : DateTime) : (formatDate dt).length = 10 := by
  simp [formatDate, pad4, pad2]

theorem stemOf_mdName (dt : DateTime) :
    stemOf (formatDate dt ++ ".md".toList) = formatDate dt := by
  have hlen : (formatDate dt ++ ".md".toList).length = 13 := by
    simp [formatDate_len]
  have hsuf : (".md".toList).isSuffixOf (formatDate dt ++ ".md".toList) = true := by
    rw [List.isSuffixOf_iff_suffix]
    exact ⟨formatDate dt, rfl⟩
  unfold stemOf
  rw [if_pos (by rw [hsuf, hlen]; rfl)]
  rw [hlen, show (13 : Nat) - 3 = 10 from rfl,
    show (10 : Nat) = (formatDate dt).length from (formatDate_len dt).symm,
    List.take_left]

theorem mdFilesUnder_single (dir : Str) (dt : DateTime) (c : Str) :
    mdFilesUnder [(diaryPath dir dt, c)] dir = [diaryPath dir dt] := by
  unfold mdFilesUnder
  simp only [List.map_cons, List.map_nil, List.filter_cons, diaryPath_prefix,
    diaryPath_suffix, List.filter_nil]
  rfl

theorem iterDiaryFiles_single (dir : Str) (dt : DateTime) (c : Str) :
    iterDiaryFiles [(diaryPath dir dt, c)] dir (formatDate dt) (formatDate dt) =
      [formatDate dt] := by
  unfold iterDiaryFiles
  rw [mdFilesUnder_single]
  rw [show sortPathsDesc [diaryPath dir dt] = [diaryPath dir dt] from rfl]
  rw [List.filterMap_cons]
  simp only [lastComponent_diaryPath, stemOf_mdName, strLe_refl, Bool.and_self,
    if_true, List.filterMap_nil]

/-!
Operation-level lemmas: one append into an empty store, and the re-parse
of the written file.
-/

theorem addDiary_empty (dir : Str) (now dt : DateTime) (C : Str) (T : List Str)
    (hdt : validDT dt = true) :
    addDiary [] dir now C (some T) (some (formatFull dt)) =
      some (confirmMsg dt (some T),
        [(diaryPath dir dt,
          buildFrontmatter (formatFull now) (formatDate dt) T ++
            entryBlock (formatHM dt) C (some T))]) := by
  unfold addDiary
  dsimp only
  rw [strptimeFull_format dt hdt]
  unfold addDiaryAt appendEntryToMarkdown
  dsimp only
  rw [getDiaryFile_diaryPath]
  rfl

theorem parseEntries_block (dt : DateTime) (C : Str) (T : List Str)
    (hC1 : strip C = C) (hC2 : ∀ c ∈ C, c ≠ '#')
    (hC3 : ∀ l ∈ splitNL C, headerTime l = none)
    (hT : ∀ t ∈ T, wfTag t = true)
    (hne : C ≠ [] ∨ T ≠ []) :
    parseEntries (strip (entryBlock (formatHM dt) C (some T))) (formatDate dt) =
      [⟨entryDtStr dt, C, T⟩] := by
  have hb := parseEntries_body_append (formatDate dt) [] (formatHM dt)
    (pad2 dt.hour ++ ':' :: (pad2 dt.minute ++ [':', '0', '0'])) C T
    strip_nil hC1 hC2 hC3 hT hne (formatHM_no_nl dt) (headerTime_formatHM dt)
  rw [List.nil_append, strip_cons_ws _ (by decide), parseEntries_nil,
    List.nil_append] at hb
  rw [hb]
  rfl

theorem loadDiary_single (dir : Str) (dt : DateTime) (nowStr C : Str)
    (T T2 : List Str)
    (hsafe : dashSafe (fmInner nowStr (formatDate dt) T2) = true)
    (hn1 : ∀ c ∈ nowStr, c ≠ '\n')
    (hT2 : ∀ t ∈ T2, wfTag t = true)
    (hC1 : strip C = C) (hC2 : ∀ c ∈ C, c ≠ '#')
    (hC3 : ∀ l ∈ splitNL C, headerTime l = none)
    (hT : ∀ t ∈ T, wfTag t = true)
    (hne : C ≠ [] ∨ T ≠ []) :
    loadDiary [(diaryPath dir dt,
        buildFrontmatter nowStr (formatDate dt) T2 ++
          entryBlock (formatHM dt) C (some T))]
      dir (formatDate dt) =
      some [⟨entryDtStr dt, C, T⟩] := by
  unfold loadDiary
  rw [getDiaryFile_diaryPath]
  dsimp only
  rw [fsRead_single]
  dsimp only
  rw [parseFrontmatter_full nowStr (formatDate dt) _ T2 hsafe
    (formatDate_no_nl dt) hn1 hT2]
  dsimp only
  rw [parseEntries_block dt C T hC1 hC2 hC3 hT hne]

theorem appendEntryToMarkdown_existing (fs : FS) (dir : Str) (now dt : DateTime)
    (C c0 : Str) (T : List Str)
    (hread : fsRead fs (diaryPath dir dt) = some c0) :
    appendEntryToMarkdown fs dir now (formatDate dt) (formatHM dt) C (some T) =
      some (fsWrite fs (diaryPath dir dt)
        (buildFrontmatter (formatFull now) (formatDate dt)
            (sortedSet (T ++ (parseEntries (parseFrontmatter c0).2
              (formatDate dt)).flatMap (·.tags))) ++
          '\n' :: (parseFrontmatter c0).2 ++
          entryBlock (formatHM dt) C (some T))) := by
  unfold appendEntryToMarkdown
  rw [getDiaryFile_diaryPath]
  dsimp only
  rw [hread]
  dsimp only
  unfold collectAllTags loadDiary
  rw [getDiaryFile_diaryPath]
  dsimp only
  rw [hread]
  dsimp only
  rfl

theorem loadDiary_written (fs : FS) (dir : Str) (dt : DateTime)
    (nowStr B C : Str) (T Tall : List Str)
    (hsafe : dashSafe (fmInner nowStr (formatDate dt) Tall) = true)
    (hn1 : ∀ c ∈ nowStr, c ≠ '\n')
    (hTall : ∀ t ∈ Tall, wfTag t = true)
    (hB : strip B = B)
    (hC1 : strip C = C) (hC2 : ∀ c ∈ C, c ≠ '#')
    (hC3 : ∀ l ∈ splitNL C, headerTime l = none)
    (hT : ∀ t ∈ T, wfTag t = true)
    (hne : C ≠ [] ∨ T ≠ []) :
    loadDiary (fsWrite fs (diaryPath dir dt)
        (buildFrontmatter nowStr (formatDate dt) Tall ++
          '\n' :: B ++ entryBlock (formatHM dt) C (some T)))
      dir (formatDate dt) =
      some (parseEntries B (formatDate dt) ++ [⟨entryDtStr dt, C, T⟩]) := by
  unfold loadDiary
  rw [getDiaryFile_diaryPath]
  dsimp only
  rw [fsRead_write]
  dsimp only
  rw [show buildFrontmatter nowStr (formatDate dt) Tall ++
      '\n' :: B ++ entryBlock (formatHM dt) C (some T) =
      buildFrontmatter nowStr (formatDate dt) Tall ++
        ('\n' :: (B ++ entryBlock (formatHM dt) C (some T))) from by simp]
  rw [parseFrontmatter_full nowStr (formatDate dt) _ Tall hsafe
    (formatDate_no_nl dt) hn1 hTall]
  dsimp only
  rw [parseEntries_body_append (formatDate dt) B (formatHM dt)
    (pad2 dt.hour ++ ':' :: (pad2 dt.minute ++ [':', '0', '0'])) C T
    hB hC1 hC2 hC3 hT hne (formatHM_no_nl dt) (headerTime_formatHM dt)]
  rfl

theorem frontTags_written (dt : DateTime) (nowStr B C : Str) (T Tall : List Str)
    (hsafe : dashSafe (fmInner nowStr (formatDate dt) Tall) = true)
    (hn1 : ∀ c ∈ nowStr, c ≠ '\n')
    (hTall : ∀ t ∈ Tall, wfTag t = true) :
    frontTags (buildFrontmatter nowStr (formatDate dt) Tall ++
        '\n' :: B ++ entryBlock (formatHM dt) C (some T)) =
      some Tall := by
  rw [show buildFrontmatter nowStr (formatDate dt) Tall ++
      '\n' :: B ++ entryBlock (formatHM dt) C (some T) =
      buildFrontmatter nowStr (formatDate dt) Tall ++
        ('\n' :: (B ++ entryBlock (formatHM dt) C (some T))) from by simp]
  exact frontTags_built nowStr (formatDate dt) _ Tall hsafe
    (formatDate_no_nl dt) hn1 hTall

/-!
Search over the single-file store, membership in `sorted(set(...))`, and
small parser facts.
-/

theorem searchDiary_singleStore (dir : Str) (now dt : DateTime) (c0 : Str)
    (e : Entry) (h1 : validDT dt = true)
    (hload : loadDiary [(diaryPath dir dt, c0)] dir (formatDate dt) = some [e])
    (hmatch : entryMatchesFilter e (dayStart dt) (dayEnd dt) none none = true) :
    searchDiary [(diaryPath dir dt, c0)] dir none none
      (some (formatFull (dayStart dt))) (some (formatFull (dayEnd dt))) now =
      some (formatSearchResults [(formatDate dt, e)]) := by
  unfold searchDiary
  rw [parseDatetimeRange_full now (dayStart dt) (dayEnd dt)
    (validDT_dayStart h1) (validDT_dayEnd h1)]
  dsimp only
  unfold searchResults
  rw [formatDate_dayStart, formatDate_dayEnd, iterDiaryFiles_single]
  rw [List.foldl_cons]
  dsimp only
  rw [hload]
  dsimp only
  simp only [List.filter_cons, hmatch, if_true, List.filter_nil, List.map_cons,
    List.map_nil, List.foldl_nil, List.nil_append]
  rfl

theorem mem_insertStr {x a : Str} {l : List Str} :
    a ∈ insertStr x l ↔ a = x ∨ a ∈ l := by
  induction l with
  | nil => simp [insertStr]
  | cons y ys ih =>
    unfold insertStr
    by_cases h : strLt x y
    · simp [h]
    · simp only [h, if_false, Bool.false_eq_true, List.mem_cons, ih]
      tauto

theorem mem_sortStrs {a : Str} {l : List Str} : a ∈ sortStrs l ↔ a ∈ l := by
  induction l with
  | nil => simp [sortStrs]
  | cons x xs ih =>
    show a ∈ insertStr x (sortStrs xs) ↔ _
    rw [mem_insertStr, ih]
    simp

theorem mem_dedupStrs : ∀ {l : List Str} {a : Str}, a ∈ dedupStrs l ↔ a ∈ l := by
  intro l
  induction l with
  | nil => intro a; simp [dedupStrs]
  | cons x xs ih =>
    intro a
    simp only [dedupStrs]
    by_cases h : (dedupStrs xs).contains x
    · simp only [h, if_true, ih, List.mem_cons]
      constructor
      · exact Or.inr
      · intro h2
        rcases h2 with h3 | h3
        · rw [h3]
          exact ih.mp (List.mem_of_elem_eq_true h)
        · exact h3
    · simp only [h, if_false, Bool.false_eq_true, List.mem_cons, ih]

theorem mem_sortedSet {a : Str} {l : List Str} : a ∈ sortedSet l ↔ a ∈ l := by
  unfold sortedSet
  rw [mem_sortStrs, mem_dedupStrs]

theorem mkEntry_none_iff (D t : Str) (ls : List Str) :
    mkEntry D t ls = none ↔ (strip (joinNL ls)).isEmpty = true := by
  unfold mkEntry
  by_cases h : (strip (joinNL ls)).isEmpty
  · simp [h]
  · simp [h]

theorem parseEntries_dt_ne_nil {body D : Str} {e : Entry}
    (he : e ∈ parseEntries body D) : e.dt.isEmpty = false := by
  unfold parseEntries at he
  obtain ⟨p, hp, hmk⟩ := List.mem_filterMap.mp he
  unfold mkEntry at hmk
  by_cases h : (strip (joinNL p.2)).isEmpty
  · simp [h] at hmk
  · simp only [h, Bool.false_eq_true, if_false] at hmk
    injection hmk with h2
    rw [← h2]
    simp

theorem loadDiary_isSome (fs : FS) (dir fd : Str)
    (hg : (getDiaryFile dir fd).isSome = true) :
    ∃ es, loadDiary fs dir fd = some es := by
  unfold loadDiary
  rcases hgd : getDiaryFile dir fd with _ | p
  · rw [hgd] at hg
    simp at hg
  · dsimp only
    rcases hr : fsRead fs p with _ | c
    · exact ⟨[], rfl⟩
    · exact ⟨_, rfl⟩

theorem searchFold_isSome (fs : FS) (dir : Str) (k t : Option Str)
    (s e : DateTime) :
    ∀ (L : List Str), (∀ fd ∈ L, (getDiaryFile dir fd).isSome = true) →
    ∀ (init : List (Str × Entry)),
    ((L.foldl (fun acc fd =>
      match acc with
      | none => none
      | some l =>
        match loadDiary fs dir fd with
        | none => none
        | some entries =>
          some (l ++ (entries.filter fun e2 =>
            entryMatchesFilter e2 s e k t).map (fd, ·))) (some init)).isSome =
      true) := by
  intro L
  induction L with
  | nil =>
    intro h init
    simp
  | cons fd rest ih =>
    intro h init
    rw [List.foldl_cons]
    obtain ⟨es, hes⟩ := loadDiary_isSome fs dir fd (h fd (by simp))
    dsimp only
    rw [hes]
    exact ih (fun x hx => h x (by simp [hx])) _

theorem searchResults_isSome (fs : FS) (dir : Str) (k t : Option Str)
    (s e : DateTime)
    (h : ∀ fd ∈ iterDiaryFiles fs dir (formatDate s) (formatDate e),
      (getDiaryFile dir fd).isSome = true) :
    (searchResults fs dir k t s e).isSome = true := by
  unfold searchResults
  exact searchFold_isSome fs dir k t s e _ h []

/-!
`sorted(set(...))` is order-insensitive: code-point order is a linear
order, insertion sort of a duplicate-free list is its unique sorted
arrangement.
-/

theorem strLt_asymm : ∀ (a b : Str), strLt a b = true → strLt b a = false := by
  intro a
  induction a with
  | nil =>
    intro b h
    cases b with
    | nil => simp [strLt] at h
    | cons y ys => simp [strLt]
  | cons x xs ih =>
    intro b h
    cases b with
    | nil => simp [strLt] at h
    | cons y ys =>
      unfold strLt at h ⊢
      by_cases h1 : x < y
      · rw [if_neg (lt_asymm h1), if_pos h1]
      · by_cases h2 : y < x
        · rw [if_neg h1, if_pos h2] at h
          exact absurd h (by simp)
        · rw [if_neg h1, if_neg h2] at h
          rw [if_neg h2, if_neg h1]
          exact ih ys h

theorem strLt_conn : ∀ (a b : Str), a ≠ b →
    strLt a b = true ∨ strLt b a = true := by
  intro a
  induction a with
  | nil =>
    intro b h
    cases b with
    | nil => exact absurd rfl h
    | cons y ys => left; simp [strLt]
  | cons x xs ih =>
    intro b h
    cases b with
    | nil => right; simp [strLt]
    | cons y ys =>
      by_cases h1 : x < y
      · left
        unfold strLt
        rw [if_pos h1]
      · by_cases h2 : y < x
        · right
          unfold strLt
          rw [if_pos h2]
        · have hxy : x = y := le_antisymm (not_lt.mp h2) (not_lt.mp h1)
          subst hxy
          have hne : xs ≠ ys := by
            intro he
            rw [he] at h
            exact h rfl
          rcases ih ys hne with h3 | h3
          · left
            unfold strLt
            rw [if_neg h1, if_neg h2]
            exact h3
          · right
            unfold strLt
            rw [if_neg h1, if_neg h2]
            exact h3

theorem strLt_trans : ∀ (a b c : Str), strLt a b = true → strLt b c = true →
    strLt a c = true := by
  intro a
  induction a with
  | nil =>
    intro b c hab hbc
    cases c with
    | nil =>
      cases b with
      | nil => simp [strLt] at hab
      | cons y ys => simp [strLt] at hbc
    | cons z zs => simp [strLt]
  | cons x xs ih =>
    intro b c hab hbc
    cases b with
    | nil => simp [strLt] at hab
    | cons y ys =>
      cases c with
      | nil => simp [strLt] at hbc
      | cons z zs =>
        unfold strLt at hab hbc ⊢
        by_cases h1 : x < y
        · by_cases h2 : y < z
          · rw [if_pos (lt_trans h1 h2)]
          · by_cases h3 : z < y
            · rw [if_neg h2, if_pos h3] at hbc
              exact absurd hbc (by simp)
            · have hyz : y = z := le_antisymm (not_lt.mp h3) (not_lt.mp h2)
              rw [if_pos (hyz ▸ h1)]
        · by_cases h4 : y < x
          · rw [if_neg h1, if_pos h4] at hab
            exact absurd hab (by simp)
          · have hxy : x = y := le_antisymm (not_lt.mp h4) (not_lt.mp h1)
            subst hxy
            rw [if_neg h1, if_neg h4] at hab
            by_cases h2 : x < z
            · rw [if_pos h2]
            · by_cases h3 : z < x
              · rw [if_neg h2, if_pos h3] at hbc
                exact absurd hbc (by simp)
              · have hxz : x = z := le_antisymm (not_lt.mp h3) (not_lt.mp h2)
                rw [if_neg h2, if_neg h3] at hbc ⊢
                exact ih ys zs hab hbc

theorem pairwise_insertStr {x : Str} {l : List Str}
    (h : l.Pairwise (fun a b => strLt b a = false)) :
    (insertStr x l).Pairwise (fun a b => strLt b a = false) := by
  induction l with
  | nil => simp [insertStr]
  | cons y ys ih =>
    obtain ⟨h1, h2⟩ := List.pairwise_cons.mp h
    unfold insertStr
    by_cases hxy : strLt x y
    · rw [if_pos hxy]
      apply List.pairwise_cons.mpr
      constructor
      · intro z hz
        rcases List.mem_cons.mp hz with h3 | h3
        · rw [h3]
          exact strLt_asymm x y hxy
        · cases hzx : strLt z x with
          | false => rfl
          | true =>
            have h4 := strLt_trans z x y hzx hxy
            rw [h1 z h3] at h4
            exact absurd h4 (by simp)
      · exact h
    · rw [if_neg hxy]
      apply List.pairwise_cons.mpr
      constructor
      · intro z hz
        rcases mem_insertStr.mp hz with h3 | h3
        · rw [h3]
          exact Bool.not_eq_true _ ▸ (by simpa using hxy)
        · exact h1 z h3
      · exact ih h2

theorem sortStrs_pairwise (l : List Str) :
    (sortStrs l).Pairwise (fun a b => strLt b a = false) := by
  induction l with
  | nil => simp [sortStrs]
  | cons x xs ih =>
    show (insertStr x (sortStrs xs)).Pairwise _
    exact pairwise_insertStr ih

theorem insertStr_perm (x : Str) (l : List Str) :
    List.Perm (insertStr x l) (x :: l) := by
  induction l with
  | nil => exact List.Perm.refl _
  | cons y ys ih =>
    unfold insertStr
    by_cases h : strLt x y
    · rw [if_pos h]
    · rw [if_neg h]
      exact (ih.cons y).trans (List.Perm.swap x y ys)

theorem sortStrs_perm (l : List Str) : List.Perm (sortStrs l) l := by
  induction l with
  | nil => exact List.Perm.refl _
  | cons x xs ih =>
    show List.Perm (insertStr x (sortStrs xs)) _
    exact (insertStr_perm x (sortStrs xs)).trans (ih.cons x)

theorem nodup_dedupStrs (l : List Str) : (dedupStrs l).Nodup := by
  induction l with
  | nil => simp [dedupStrs]
  | cons x xs ih =>
    simp only [dedupStrs]
    by_cases h : (dedupStrs xs).contains x
    · simp only [h, if_true]
      exact ih
    · simp only [h, if_false, Bool.false_eq_true]
      apply List.nodup_cons.mpr
      constructor
      · intro hmem
        exact absurd (List.elem_eq_true_of_mem hmem) (by simpa using h)
      · exact ih

theorem nodup_sortStrs {l : List Str} (h : l.Nodup) : (sortStrs l).Nodup :=
  ((sortStrs_perm l).nodup_iff).mpr h

theorem pairwise_strict {l : List Str}
    (h1 : l.Pairwise (fun a b => strLt b a = false)) (h2 : l.Nodup) :
    l.Pairwise (fun a b => strLt a b = true) := by
  have h3 := h1.and h2
  apply h3.imp
  intro a b hab
  rcases strLt_conn a b hab.2 with h4 | h4
  · exact h4
  · rw [hab.1] at h4
    exact absurd h4 (by simp)

theorem sorted_eq_of_mem_iff : ∀ {l1 l2 : List Str},
    l1.Pairwise (fun a b => strLt a b = true) →
    l2.Pairwise (fun a b => strLt a b = true) →
    (∀ x, x ∈ l1 ↔ x ∈ l2) → l1 = l2 := by
  intro l1
  induction l1 with
  | nil =>
    intro l2 _ _ hm
    cases l2 with
    | nil => rfl
    | cons y ys => exact absurd ((hm y).mpr (by simp)) (by simp)
  | cons x xs ih =>
    intro l2 h1 h2 hm
    cases l2 with
    | nil => exact absurd ((hm x).mp (by simp)) (by simp)
    | cons y ys =>
      obtain ⟨h1a, h1b⟩ := List.pairwise_cons.mp h1
      obtain ⟨h2a, h2b⟩ := List.pairwise_cons.mp h2
      have hxy : x = y := by
        rcases List.mem_cons.mp ((hm x).mp (by simp)) with h3 | h3
        · exact h3
        · rcases List.mem_cons.mp ((hm y).mpr (by simp)) with h4 | h4
          · exact h4.symm
          · have hyx : strLt y x = true := h2a x h3
            have hxy2 : strLt x y = true := h1a y h4
            rw [strLt_asymm x y hxy2] at hyx
            exact absurd hyx (by simp)
      subst hxy
      congr 1
      apply ih h1b h2b
      intro z
      constructor
      · intro hz
        have hxz : strLt x z = true := h1a z hz
        rcases List.mem_cons.mp ((hm z).mp (by simp [hz])) with h5 | h5
        · rw [h5, strLt_irrefl] at hxz
          exact absurd hxz (by simp)
        · exact h5
      · intro hz
        have hxz : strLt x z = true := h2a z hz
        rcases List.mem_cons.mp ((hm z).mpr (by simp [hz])) with h5 | h5
        · rw [h5, strLt_irrefl] at hxz
          exact absurd hxz (by simp)
        · exact h5

theorem sortedSet_pairwise (l : List Str) :
    (sortedSet l).Pairwise (fun a b => strLt a b = true) :=
  pairwise_strict (sortStrs_pairwise _) (nodup_sortStrs (nodup_dedupStrs l))

theorem sortedSet_eq_of_mem (l1 l2 : List Str) (h : ∀ x, x ∈ l1 ↔ x ∈ l2) :
    sortedSet l1 = sortedSet l2 := by
  apply sorted_eq_of_mem_iff (sortedSet_pairwise l1) (sortedSet_pairwise l2)
  intro x
  rw [mem_sortedSet, mem_sortedSet]
  exact h x

theorem sortedSet_comm (A B : List Str) :
    sortedSet (A ++ B) = sortedSet (B ++ A) :=
  sortedSet_eq_of_mem _ _ (by
    intro x
    simp only [List.mem_append]
    tauto)

/-!
Helpers for the two-append pipeline and the filter check on a freshly
appended entry.
-/

theorem entryMatches_self (dt : DateTime) (C : Str) (T : List Str)
    (hdt : validDT dt = true) :
    entryMatchesFilter ⟨entryDtStr dt, C, T⟩ (dayStart dt) (dayEnd dt)
      none none = true := by
  obtain ⟨_, _, _, _, _, _, h7, h8, _⟩ := validDT_fields hdt
  have hne : (entryDtStr dt).isEmpty = false := by
    simp [entryDtStr, formatDate, pad4, pad2]
  unfold entryMatchesFilter
  dsimp only
  simp only [hne, Bool.false_eq_true, if_false]
  rw [strptimeFull_entryDt dt hdt]
  dsimp only
  simp only [dayStart, dayEnd]
  rw [dtLE_dayStart dt.year dt.month dt.day dt.hour dt.minute,
    dtLE_dayEnd dt.year dt.month dt.day dt.hour dt.minute h7 h8]
  rfl

theorem fsWrite_single (p c0 c1 : Str) : fsWrite [(p, c0)] p c1 = [(p, c1)] := by
  unfold fsWrite
  rw [if_pos (by simp [List.find?])]
  simp

theorem formatDate_congr {dt1 dt2 : DateTime} (hy : dt2.year = dt1.year)
    (hm : dt2.month = dt1.month) (hd : dt2.day = dt1.day) :
    formatDate dt2 = formatDate dt1 := by
  simp [formatDate, hy, hm, hd]

theorem diaryPath_congr {dt1 dt2 : DateTime} (dir : Str)
    (hy : dt2.year = dt1.year) (hm : dt2.month = dt1.month)
    (hd : dt2.day = dt1.day) :
    diaryPath dir dt2 = diaryPath dir dt1 := by
  simp [diaryPath, hy, hm, formatDate_congr hy hm hd]

theorem parseEntries_block_at (D : Str) (dt : DateTime) (C : Str) (T : List Str)
    (hC1 : strip C = C) (hC2 : ∀ c ∈ C, c ≠ '#')
    (hC3 : ∀ l ∈ splitNL C, headerTime l = none)
    (hT : ∀ t ∈ T, wfTag t = true)
    (hne : C ≠ [] ∨ T ≠ []) :
    parseEntries (strip (entryBlock (formatHM dt) C (some T))) D =
      [⟨D ++ ' ' :: (pad2 dt.hour ++ ':' :: (pad2 dt.minute ++ [':', '0', '0'])),
        C, T⟩] := by
  have hb := parseEntries_body_append D [] (formatHM dt)
    (pad2 dt.hour ++ ':' :: (pad2 dt.minute ++ [':', '0', '0'])) C T
    strip_nil hC1 hC2 hC3 hT hne (formatHM_no_nl dt) (headerTime_formatHM dt)
  rw [List.nil_append, strip_cons_ws _ (by decide), parseEntries_nil,
    List.nil_append] at hb
  exact hb

theorem loadDiary_written_at (fs : FS) (dir : Str) (dt dtE : DateTime)
    (nowStr B C : Str) (T Tall : List Str)
    (hsafe : dashSafe (fmInner nowStr (formatDate dt) Tall) = true)
    (hn1 : ∀ c ∈ nowStr, c ≠ '\n')
    (hTall : ∀ t ∈ Tall, wfTag t = true)
    (hB : strip B = B)
    (hC1 : strip C = C) (hC2 : ∀ c ∈ C, c ≠ '#')
    (hC3 : ∀ l ∈ splitNL C, headerTime l = none)
    (hT : ∀ t ∈ T, wfTag t = true)
    (hne : C ≠ [] ∨ T ≠ []) :
    loadDiary (fsWrite fs (diaryPath dir dt)
        (buildFrontmatter nowStr (formatDate dt) Tall ++
          '\n' :: B ++ entryBlock (formatHM dtE) C (some T)))
      dir (formatDate dt) =
      some (parseEntries B (formatDate dt) ++
        [⟨formatDate dt ++ ' ' ::
          (pad2 dtE.hour ++ ':' :: (pad2 dtE.minute ++ [':', '0', '0'])), C, T⟩]) := by
  unfold loadDiary
  rw [getDiaryFile_diaryPath]
  dsimp only
  rw [fsRead_write]
  dsimp only
  rw [show buildFrontmatter nowStr (formatDate dt) Tall ++
      '\n' :: B ++ entryBlock (formatHM dtE) C (some T) =
      buildFrontmatter nowStr (formatDate dt) Tall ++
        ('\n' :: (B ++ entryBlock (formatHM dtE) C (some T))) from by simp]
  rw [parseFrontmatter_full nowStr (formatDate dt) _ Tall hsafe
    (formatDate_no_nl dt) hn1 hTall]
  dsimp only
  rw [parseEntries_body_append (formatDate dt) B (formatHM dtE)
    (pad2 dtE.hour ++ ':' :: (pad2 dtE.minute ++ [':', '0', '0'])) C T
    hB hC1 hC2 hC3 hT hne (formatHM_no_nl dtE) (headerTime_formatHM dtE)]

theorem second_append (dir : Str) (now2 dt1 dt2 : DateTime)
    (nowStr1 C1c C2c : Str) (T1 T2 : List Str)
    (hdt2 : validDT dt2 = true)
    (hy : dt2.year = dt1.year) (hm : dt2.month = dt1.month)
    (hd : dt2.day = dt1.day)
    (hC11 : strip C1c = C1c) (hC12 : ∀ c ∈ C1c, c ≠ '#')
    (hC13 : ∀ l ∈ splitNL C1c, headerTime l = none)
    (hT1 : ∀ t ∈ T1, wfTag t = true) (hne1 : C1c ≠ [] ∨ T1 ≠ [])
    (hn11 : ∀ c ∈ nowStr1, c ≠ '\n')
    (hsafe1 : dashSafe (fmInner nowStr1 (formatDate dt1) T1) = true) :
    addDiary [(diaryPath dir dt1,
        buildFrontmatter nowStr1 (formatDate dt1) T1 ++
          entryBlock (formatHM dt1) C1c (some T1))]
      dir now2 C2c (some T2) (some (formatFull dt2)) =
      some (confirmMsg dt2 (some T2),
        [(diaryPath dir dt1,
          buildFrontmatter (formatFull now2) (formatDate dt1)
              (sortedSet (T2 ++ T1)) ++
            '\n' :: strip (entryBlock (formatHM dt1) C1c (some T1)) ++
            entryBlock (formatHM dt2) C2c (some T2))]) := by
  have hfd : formatDate dt2 = formatDate dt1 := formatDate_congr hy hm hd
  have hdp : diaryPath dir dt2 = diaryPath dir dt1 := diaryPath_congr dir hy hm hd
  have hread : fsRead [(diaryPath dir dt1,
      buildFrontmatter nowStr1 (formatDate dt1) T1 ++
        entryBlock (formatHM dt1) C1c (some T1))] (diaryPath dir dt2) =
      some (buildFrontmatter nowStr1 (formatDate dt1) T1 ++
        entryBlock (formatHM dt1) C1c (some T1)) := by
    rw [hdp]
    exact fsRead_single _ _
  unfold addDiary
  dsimp only
  rw [strptimeFull_format dt2 hdt2]
  unfold addDiaryAt
  dsimp only
  rw [appendEntryToMarkdown_existing _ dir now2 dt2 C2c _ T2 hread]
  dsimp only
  rw [parseFrontmatter_full nowStr1 (formatDate dt1) _ T1 hsafe1
    (formatDate_no_nl dt1) hn11 hT1]
  dsimp only
  rw [parseEntries_block_at (formatDate dt2) dt1 C1c T1 hC11 hC12 hC13 hT1 hne1]
  rw [show ([(⟨formatDate dt2 ++ ' ' ::
      (pad2 dt1.hour ++ ':' :: (pad2 dt1.minute ++ [':', '0', '0'])),
      C1c, T1⟩ : Entry)].flatMap (·.tags)) = T1 from by simp]
  rw [hdp, fsWrite_single, hfd]

/-!
Claim theorems.
-/

/-- C4: a datetime string for `add_diary` that fails `%Y-%m-%d %H:%M:%S`
produces the descriptive message and leaves the store untouched (the
append side of the claim).  The counterexample `C4_cex` shows the search
side instead raises: a bound failing both formats crashes `search_diary`
rather than returning an error string. -/
theorem C4_invalid_datetime (fs : FS) (dir : Str) (now : DateTime) (C : Str)
    (tg : Option (List Str)) (s : Str) (hs : strptimeFull s = none) :
    addDiary fs dir now C tg (some s) = some (invalidDatetimeMsg s, fs) := by
  unfold addDiary
  dsimp only
  rw [hs]

theorem C4_invalid_datetime_witness :
    addDiary [] ['d'] ⟨2024, 5, 6, 0, 0, 0⟩ [] none (some "garbage".toList) =
      some (invalidDatetimeMsg "garbage".toList, []) :=
  C4_invalid_datetime [] ['d'] ⟨2024, 5, 6, 0, 0, 0⟩ [] none "garbage".toList
    (by decide)

theorem C4_cex :
    searchDiary [] ['d'] none none (some "garbage".toList) none
      ⟨2024, 5, 6, 0, 0, 0⟩ = none := by decide

/-- C6: corrected.  `_parse_entries` keeps or drops a section according to
the RAW content block (before inline tags are removed): the entry is
dropped iff the joined content lines strip to the empty string.  The
counterexample `C6_cex` shows a tags-only section is kept with empty
content, contradicting the claim that it is discarded. -/
theorem C6_empty_discard (D t : Str) (ls : List Str) :
    mkEntry D t ls = none ↔ (strip (joinNL ls)).isEmpty = true := by
  unfold mkEntry
  by_cases h : (strip (joinNL ls)).isEmpty
  · simp [h]
  · simp [h]

theorem C6_cex :
    parseEntries ("## 10:00\n\n\n\n#x".toList) "2024-05-06".toList =
      [⟨"2024-05-06 10:00:00".toList, [], ["x".toList]⟩] := by
  have hsp : splitNL ("## 10:00\n\n\n\n#x".toList) =
      ["## 10:00".toList, [], [], [], "#x".toList] := by decide
  unfold parseEntries
  rw [hsp]
  rw [show sectionsOf ["## 10:00".toList, [], [], [], "#x".toList] =
    [("10:00:00".toList, [[], [], [], "#x".toList])] from by decide]
  rw [show ([[], [], [], "#x".toList] : List Str) =
    [] :: splitNL ([] ++ tagPart ["x".toList]) from by decide]
  have hmk := mkEntry_section "2024-05-06".toList "10:00:00".toList []
    ["x".toList] (by decide) (by decide) (by decide) (by decide)
  simp only [List.filterMap_cons, hmk, List.filterMap_nil]
  rfl

/-- C7: an entry produced by the parser passes the search filter only if
its `datetime` string parses and the parsed value lies within the
inclusive range; an unparseable `datetime` makes the filter reject the
entry. -/
theorem C7_filter (body D : Str) (s en : DateTime) (k tg : Option Str)
    (e : Entry) (he : e ∈ parseEntries body D) :
    (entryMatchesFilter e s en k tg = true →
      ∃ dt0, strptimeFull e.dt = some dt0 ∧ dtLE s dt0 = true ∧
        dtLE dt0 en = true) ∧
    (strptimeFull e.dt = none → entryMatchesFilter e s en k tg = false) := by
  have hne : e.dt.isEmpty = false := parseEntries_dt_ne_nil he
  constructor
  · intro hm
    unfold entryMatchesFilter at hm
    rw [if_neg (by simp [hne])] at hm
    rcases hdt : strptimeFull e.dt with _ | dt0
    · rw [hdt] at hm
      simp at hm
    · rw [hdt] at hm
      dsimp only at hm
      simp only [Bool.and_eq_true] at hm
      exact ⟨dt0, rfl, hm.1.1.1, hm.1.1.2⟩
  · intro hnone
    unfold entryMatchesFilter
    rw [if_neg (by simp [hne]), hnone]
    rfl

theorem C7_filter_witness :
    (entryMatchesFilter ⟨"2024-05-06 10:00:00".toList, "hi".toList, []⟩
        ⟨2024, 5, 6, 0, 0, 0⟩ ⟨2024, 5, 6, 23, 59, 59⟩ none none = true →
      ∃ dt0, strptimeFull ("2024-05-06 10:00:00".toList) = some dt0 ∧
        dtLE ⟨2024, 5, 6, 0, 0, 0⟩ dt0 = true ∧
        dtLE dt0 ⟨2024, 5, 6, 23, 59, 59⟩ = true) ∧
    (strptimeFull ("2024-05-06 10:00:00".toList) = none →
      entryMatchesFilter ⟨"2024-05-06 10:00:00".toList, "hi".toList, []⟩
        ⟨2024, 5, 6, 0, 0, 0⟩ ⟨2024, 5, 6, 23, 59, 59⟩ none none = false) :=
  C7_filter (strip (entryBlock (formatHM ⟨2024, 5, 6, 10, 0, 0⟩) "hi".toList
      (some []))) "2024-05-06".toList
    ⟨2024, 5, 6, 0, 0, 0⟩ ⟨2024, 5, 6, 23, 59, 59⟩ none none
    ⟨"2024-05-06 10:00:00".toList, "hi".toList, []⟩
    (by
      rw [parseEntries_block_at "2024-05-06".toList ⟨2024, 5, 6, 10, 0, 0⟩
        "hi".toList [] (by decide) (by decide) (by decide) (by decide)
        (by decide)]
      exact List.mem_singleton.mpr (by decide))

/-- C8: omitted search bounds default to thirty days before now and to
now; a date-only start bound parses to midnight of that day and a
date-only end bound to 23:59:59 of that day. -/
theorem C8_range_defaults (now dt1 dt2 : DateTime)
    (h1 : validDT dt1 = true) (h2 : validDT dt2 = true) :
    parseDatetimeRange none none now = some (subDays now 30, now) ∧
    parseDatetimeRange (some (formatDate dt1)) (some (formatDate dt2)) now =
      some (dayStart dt1, dayEnd dt2) :=
  ⟨parseDatetimeRange_defaults now, parseDatetimeRange_dateOnly now dt1 dt2 h1 h2⟩

theorem C8_range_defaults_witness :
    parseDatetimeRange none none ⟨2024, 5, 6, 12, 0, 0⟩ =
      some (subDays ⟨2024, 5, 6, 12, 0, 0⟩ 30, ⟨2024, 5, 6, 12, 0, 0⟩) ∧
    parseDatetimeRange (some (formatDate ⟨2024, 1, 15, 0, 0, 0⟩))
      (some (formatDate ⟨2024, 2, 3, 0, 0, 0⟩)) ⟨2024, 5, 6, 12, 0, 0⟩ =
      some (dayStart ⟨2024, 1, 15, 0, 0, 0⟩, dayEnd ⟨2024, 2, 3, 0, 0, 0⟩) :=
  C8_range_defaults ⟨2024, 5, 6, 12, 0, 0⟩ ⟨2024, 1, 15, 0, 0, 0⟩
    ⟨2024, 2, 3, 0, 0, 0⟩ (by decide) (by decide)

/-- C10: corrected.  `search_diary` returns a result whenever every
in-range stem splits into exactly three dash-separated parts; the
counterexample `C10_cex` shows a stray stem such as `2024-05` makes the
per-file load crash the whole search, so the claimed totality fails. -/
theorem C10_search_totality (fs : FS) (dir : Str) (k t : Option Str)
    (ss es : Option Str) (now s e : DateTime)
    (hparse : parseDatetimeRange ss es now = some (s, e))
    (h : ∀ fd ∈ iterDiaryFiles fs dir (formatDate s) (formatDate e),
      (getDiaryFile dir fd).isSome = true) :
    (searchDiary fs dir k t ss es now).isSome = true := by
  unfold searchDiary
  rw [hparse]
  dsimp only
  rw [Option.isSome_map']
  exact searchResults_isSome fs dir k t s e h

theorem C10_search_totality_witness :
    (searchDiary [("d/2024/05/2024-05-06.md".toList, "x".toList)] ['d']
      none none (some "2024-05-06 00:00:00".toList)
      (some "2024-05-06 23:59:59".toList) ⟨2024, 5, 7, 0, 0, 0⟩).isSome =
      true :=
  C10_search_totality [("d/2024/05/2024-05-06.md".toList, "x".toList)] ['d']
    none none (some "2024-05-06 00:00:00".toList)
    (some "2024-05-06 23:59:59".toList) ⟨2024, 5, 7, 0, 0, 0⟩
    ⟨2024, 5, 6, 0, 0, 0⟩ ⟨2024, 5, 6, 23, 59, 59⟩ (by decide) (by decide)

theorem C10_cex :
    searchDiary [("d/2024-05.md".toList, "x".toList)] ['d'] none none
      (some "2024-01-01".toList) (some "2024-12-31".toList)
      ⟨2024, 5, 6, 0, 0, 0⟩ = none := by decide

/-- C1: corrected round-trip.  For hygienic content (already stripped, no
`#`, no header-shaped line, nonempty) and well-formed tags, appending one
entry into an empty store and searching a range covering its day returns
the report of exactly the one entry, whose content is `C` and whose tags
are `T`.  The counterexample `C1_cex` shows the unrestricted claim fails:
an empty content string makes the appended section unparseable, and the
search reports no entries. -/
theorem C1_round_trip (dir : Str) (now now2 dt : DateTime) (C : Str)
    (T : List Str) (hdt : validDT dt = true)
    (hC1 : strip C = C) (hC2 : ∀ c ∈ C, c ≠ '#')
    (hC3 : ∀ l ∈ splitNL C, headerTime l = none)
    (hT : ∀ t ∈ T, wfTag t = true)
    (hCne : C ≠ [])
    (hsafe : dashSafe (fmInner (formatFull now) (formatDate dt) T) = true) :
    ∃ msg fs1,
      addDiary [] dir now C (some T) (some (formatFull dt)) = some (msg, fs1) ∧
      searchDiary fs1 dir none none (some (formatFull (dayStart dt)))
        (some (formatFull (dayEnd dt))) now2 =
        some (formatSearchResults
          [(formatDate dt, ⟨entryDtStr dt, C, T⟩)]) := by
  refine ⟨confirmMsg dt (some T), _, addDiary_empty dir now dt C T hdt, ?_⟩
  exact searchDiary_singleStore dir now2 dt _ _ hdt
    (loadDiary_single dir dt (formatFull now) C T T hsafe
      (formatFull_no_nl now) hT hC1 hC2 hC3 hT (Or.inl hCne))
    (entryMatches_self dt C T hdt)

theorem C1_round_trip_witness :
    ∃ msg fs1,
      addDiary [] ['d'] ⟨2024, 5, 6, 12, 0, 0⟩ "hello".toList
          (some ["work".toList])
          (some (formatFull ⟨2024, 5, 6, 10, 30, 0⟩)) = some (msg, fs1) ∧
      searchDiary fs1 ['d'] none none
        (some (formatFull (dayStart ⟨2024, 5, 6, 10, 30, 0⟩)))
        (some (formatFull (dayEnd ⟨2024, 5, 6, 10, 30, 0⟩)))
        ⟨2024, 5, 7, 9, 0, 0⟩ =
        some (formatSearchResults
          [(formatDate ⟨2024, 5, 6, 10, 30, 0⟩,
            ⟨entryDtStr ⟨2024, 5, 6, 10, 30, 0⟩, "hello".toList,
              ["work".toList]⟩)]) :=
  C1_round_trip ['d'] ⟨2024, 5, 6, 12, 0, 0⟩ ⟨2024, 5, 7, 9, 0, 0⟩
    ⟨2024, 5, 6, 10, 30, 0⟩ "hello".toList ["work".toList]
    (by decide) (by decide) (by decide) (by decide) (by decide) (by decide)
    (by decide)

theorem C1_cex :
    (addDiary [] ['d'] ⟨2024, 5, 6, 12, 0, 0⟩ [] (some [])
        (some "2024-05-06 10:30:00".toList)).map
      (fun r => searchDiary r.2 ['d'] none none
        (some "2024-05-06 00:00:00".toList)
        (some "2024-05-06 23:59:59".toList) ⟨2024, 5, 6, 12, 0, 0⟩) =
      some (some "No matching diary entries found".toList) := by decide

/-- C2: corrected.  On an append to an existing day file the frontmatter
tag line becomes `sorted(set(new_tags + existing_entry_tags))`, and this
sorted union is append-order insensitive.  The counterexample `C2_cex`
shows the very first append writes the given tag list verbatim (unsorted,
duplicates untouched), so the claim does not hold for every append. -/
theorem C2_tag_union (dir : Str) (now1 now2 dt1 dt2 : DateTime)
    (C1c C2c : Str) (T1 T2 : List Str)
    (hdt1 : validDT dt1 = true) (hdt2 : validDT dt2 = true)
    (hy : dt2.year = dt1.year) (hm : dt2.month = dt1.month)
    (hd : dt2.day = dt1.day)
    (hC11 : strip C1c = C1c) (hC12 : ∀ c ∈ C1c, c ≠ '#')
    (hC13 : ∀ l ∈ splitNL C1c, headerTime l = none)
    (hT1 : ∀ t ∈ T1, wfTag t = true) (hne1 : C1c ≠ [] ∨ T1 ≠ [])
    (hT2 : ∀ t ∈ T2, wfTag t = true)
    (hsafe1 : dashSafe (fmInner (formatFull now1) (formatDate dt1) T1) = true)
    (hsafe2 : dashSafe (fmInner (formatFull now2) (formatDate dt1)
      (sortedSet (T2 ++ T1))) = true) :
    ∃ m1 fs1 m2 p c1,
      addDiary [] dir now1 C1c (some T1) (some (formatFull dt1)) =
        some (m1, fs1) ∧
      addDiary fs1 dir now2 C2c (some T2) (some (formatFull dt2)) =
        some (m2, [(p, c1)]) ∧
      frontTags c1 = some (sortedSet (T2 ++ T1)) ∧
      sortedSet (T2 ++ T1) = sortedSet (T1 ++ T2) := by
  refine ⟨confirmMsg dt1 (some T1), _, confirmMsg dt2 (some T2),
    diaryPath dir dt1, _,
    addDiary_empty dir now1 dt1 C1c T1 hdt1,
    second_append dir now2 dt1 dt2 (formatFull now1) C1c C2c T1 T2 hdt2
      hy hm hd hC11 hC12 hC13 hT1 hne1 (formatFull_no_nl now1) hsafe1,
    ?_, sortedSet_comm T2 T1⟩
  have hTall : ∀ t ∈ sortedSet (T2 ++ T1), wfTag t = true := by
    intro t ht
    rcases List.mem_append.mp (mem_sortedSet.mp ht) with h | h
    · exact hT2 t h
    · exact hT1 t h
  rw [show buildFrontmatter (formatFull now2) (formatDate dt1)
      (sortedSet (T2 ++ T1)) ++
      '\n' :: strip (entryBlock (formatHM dt1) C1c (some T1)) ++
      entryBlock (formatHM dt2) C2c (some T2) =
      buildFrontmatter (formatFull now2) (formatDate dt1)
        (sortedSet (T2 ++ T1)) ++
        ('\n' :: (strip (entryBlock (formatHM dt1) C1c (some T1)) ++
          entryBlock (formatHM dt2) C2c (some T2))) from by simp]
  exact frontTags_built (formatFull now2) (formatDate dt1) _
    (sortedSet (T2 ++ T1)) hsafe2 (formatDate_no_nl dt1)
    (formatFull_no_nl now2) hTall

theorem C2_tag_union_witness :
    ∃ m1 fs1 m2 p c1,
      addDiary [] ['d'] ⟨2024, 5, 6, 8, 0, 0⟩ "one".toList
          (some ["a".toList, "b".toList])
          (some (formatFull ⟨2024, 5, 6, 8, 0, 0⟩)) = some (m1, fs1) ∧
      addDiary fs1 ['d'] ⟨2024, 5, 6, 9, 0, 0⟩ "two".toList
          (some ["b".toList, "c".toList])
          (some (formatFull ⟨2024, 5, 6, 9, 0, 0⟩)) = some (m2, [(p, c1)]) ∧
      frontTags c1 =
        some (sortedSet (["b".toList, "c".toList] ++
          ["a".toList, "b".toList])) ∧
      sortedSet (["b".toList, "c".toList] ++ ["a".toList, "b".toList]) =
        sortedSet (["a".toList, "b".toList] ++ ["b".toList, "c".toList]) :=
  C2_tag_union ['d'] ⟨2024, 5, 6, 8, 0, 0⟩ ⟨2024, 5, 6, 9, 0, 0⟩
    ⟨2024, 5, 6, 8, 0, 0⟩ ⟨2024, 5, 6, 9, 0, 0⟩ "one".toList "two".toList
    ["a".toList, "b".toList] ["b".toList, "c".toList]
    (by decide) (by decide) (by decide) (by decide) (by decide) (by decide)
    (by decide) (by decide) (by decide) (by decide) (by decide) (by decide)
    (by decide)

theorem C2_cex :
    (∃ m, addDiary [] ['d'] ⟨2024, 5, 6, 12, 0, 0⟩ "hi".toList
        (some ["b".toList, "a".toList])
        (some (formatFull ⟨2024, 5, 6, 10, 0, 0⟩)) =
      some (m, [(diaryPath ['d'] ⟨2024, 5, 6, 10, 0, 0⟩,
        buildFrontmatter (formatFull ⟨2024, 5, 6, 12, 0, 0⟩)
            (formatDate ⟨2024, 5, 6, 10, 0, 0⟩) ["b".toList, "a".toList] ++
          entryBlock (formatHM ⟨2024, 5, 6, 10, 0, 0⟩) "hi".toList
            (some ["b".toList, "a".toList]))])) ∧
    frontTags (buildFrontmatter (formatFull ⟨2024, 5, 6, 12, 0, 0⟩)
        (formatDate ⟨2024, 5, 6, 10, 0, 0⟩) ["b".toList, "a".toList] ++
      entryBlock (formatHM ⟨2024, 5, 6, 10, 0, 0⟩) "hi".toList
        (some ["b".toList, "a".toList])) =
      some ["b".toList, "a".toList] ∧
    ["b".toList, "a".toList] ≠
      sortedSet (["b".toList, "a".toList] ++ []) := by
  refine ⟨⟨confirmMsg ⟨2024, 5, 6, 10, 0, 0⟩
    (some ["b".toList, "a".toList]), ?_⟩, ?_, by decide⟩
  · exact addDiary_empty ['d'] ⟨2024, 5, 6, 12, 0, 0⟩ ⟨2024, 5, 6, 10, 0, 0⟩
      "hi".toList ["b".toList, "a".toList] (by decide)
  · exact frontTags_built (formatFull ⟨2024, 5, 6, 12, 0, 0⟩)
      (formatDate ⟨2024, 5, 6, 10, 0, 0⟩) _ ["b".toList, "a".toList]
      (by decide) (by decide) (by decide) (by decide)

/-- C3: two appends to the same day leave the sections in append order,
regardless of their times of day, and the parser returns the entries in
that stored order: the first-appended entry (here at any time, e.g.
20:00) comes before the second (e.g. 08:00). -/
theorem C3_append_order (dir : Str) (now1 now2 dt1 dt2 : DateTime)
    (C1c C2c : Str) (T1 T2 : List Str)
    (hdt1 : validDT dt1 = true) (hdt2 : validDT dt2 = true)
    (hy : dt2.year = dt1.year) (hm : dt2.month = dt1.month)
    (hd : dt2.day = dt1.day)
    (hC11 : strip C1c = C1c) (hC12 : ∀ c ∈ C1c, c ≠ '#')
    (hC13 : ∀ l ∈ splitNL C1c, headerTime l = none)
    (hT1 : ∀ t ∈ T1, wfTag t = true) (hne1 : C1c ≠ [] ∨ T1 ≠ [])
    (hC21 : strip C2c = C2c) (hC22 : ∀ c ∈ C2c, c ≠ '#')
    (hC23 : ∀ l ∈ splitNL C2c, headerTime l = none)
    (hT2 : ∀ t ∈ T2, wfTag t = true) (hne2 : C2c ≠ [] ∨ T2 ≠ [])
    (hsafe1 : dashSafe (fmInner (formatFull now1) (formatDate dt1) T1) = true)
    (hsafe2 : dashSafe (fmInner (formatFull now2) (formatDate dt1)
      (sortedSet (T2 ++ T1))) = true) :
    ∃ m1 fs1 m2 fs2,
      addDiary [] dir now1 C1c (some T1) (some (formatFull dt1)) =
        some (m1, fs1) ∧
      addDiary fs1 dir now2 C2c (some T2) (some (formatFull dt2)) =
        some (m2, fs2) ∧
      loadDiary fs2 dir (formatDate dt1) =
        some [⟨entryDtStr dt1, C1c, T1⟩, ⟨entryDtStr dt2, C2c, T2⟩] := by
  refine ⟨confirmMsg dt1 (some T1), _, confirmMsg dt2 (some T2), _,
    addDiary_empty dir now1 dt1 C1c T1 hdt1,
    second_append dir now2 dt1 dt2 (formatFull now1) C1c C2c T1 T2 hdt2
      hy hm hd hC11 hC12 hC13 hT1 hne1 (formatFull_no_nl now1) hsafe1,
    ?_⟩
  have hTall : ∀ t ∈ sortedSet (T2 ++ T1), wfTag t = true := by
    intro t ht
    rcases List.mem_append.mp (mem_sortedSet.mp ht) with h | h
    · exact hT2 t h
    · exact hT1 t h
  have h3 := loadDiary_written_at
    [(diaryPath dir dt1,
      buildFrontmatter (formatFull now1) (formatDate dt1) T1 ++
        entryBlock (formatHM dt1) C1c (some T1))]
    dir dt1 dt2 (formatFull now2)
    (strip (entryBlock (formatHM dt1) C1c (some T1))) C2c T2
    (sortedSet (T2 ++ T1)) hsafe2 (formatFull_no_nl now2) hTall
    (strip_idem _) hC21 hC22 hC23 hT2 hne2
  rw [fsWrite_single] at h3
  rw [parseEntries_block_at (formatDate dt1) dt1 C1c T1
    hC11 hC12 hC13 hT1 hne1] at h3
  rw [h3]
  have hts : entryDtStr dt2 = formatDate dt1 ++ ' ' ::
      (pad2 dt2.hour ++ ':' :: (pad2 dt2.minute ++ [':', '0', '0'])) := by
    unfold entryDtStr
    rw [formatDate_congr hy hm hd,
      show (":00".toList : Str) = [':', '0', '0'] from rfl]
    simp
  rw [hts]
  rfl

theorem C3_append_order_witness :
    ∃ m1 fs1 m2 fs2,
      addDiary [] ['d'] ⟨2024, 5, 6, 20, 0, 0⟩ "evening".toList (some [])
          (some (formatFull ⟨2024, 5, 6, 20, 0, 0⟩)) = some (m1, fs1) ∧
      addDiary fs1 ['d'] ⟨2024, 5, 7, 8, 0, 0⟩ "morning".toList (some [])
          (some (formatFull ⟨2024, 5, 6, 8, 0, 0⟩)) = some (m2, fs2) ∧
      loadDiary fs2 ['d'] (formatDate ⟨2024, 5, 6, 20, 0, 0⟩) =
        some [⟨entryDtStr ⟨2024, 5, 6, 20, 0, 0⟩, "evening".toList, []⟩,
          ⟨entryDtStr ⟨2024, 5, 6, 8, 0, 0⟩, "morning".toList, []⟩] :=
  C3_append_order ['d'] ⟨2024, 5, 6, 20, 0, 0⟩ ⟨2024, 5, 7, 8, 0, 0⟩
    ⟨2024, 5, 6, 20, 0, 0⟩ ⟨2024, 5, 6, 8, 0, 0⟩ "evening".toList
    "morning".toList [] []
    (by decide) (by decide) (by decide) (by decide) (by decide) (by decide)
    (by decide) (by decide) (by decide) (by decide) (by decide) (by decide)
    (by decide) (by decide) (by decide) (by decide) (by decide)

/-- C5: corrected.  Parsed entries are independent of the frontmatter tag
list: replacing the `tags:` line changes nothing in the entries the
reader returns, so entry tags come from the inline markers only.  The
counterexample `C5_cex` exhibits a file whose frontmatter carries tag `x`
while its only entry has no inline tags: the entry is parsed with an
empty tag set and a tag search for `x` rejects it. -/
theorem C5_frontmatter_ignored (nowStr D X : Str) (ts1 ts2 : List Str)
    (hs1 : dashSafe (fmInner nowStr D ts1) = true)
    (hs2 : dashSafe (fmInner nowStr D ts2) = true)
    (hd1 : ∀ c ∈ D, c ≠ '\n') (hn1 : ∀ c ∈ nowStr, c ≠ '\n')
    (hT1 : ∀ t ∈ ts1, wfTag t = true) (hT2 : ∀ t ∈ ts2, wfTag t = true) :
    parseEntries ((parseFrontmatter (buildFrontmatter nowStr D ts1 ++ X)).2) D =
      parseEntries ((parseFrontmatter (buildFrontmatter nowStr D ts2 ++ X)).2)
        D := by
  rw [parseFrontmatter_full nowStr D X ts1 hs1 hd1 hn1 hT1,
    parseFrontmatter_full nowStr D X ts2 hs2 hd1 hn1 hT2]

theorem C5_frontmatter_ignored_witness :
    parseEntries ((parseFrontmatter (buildFrontmatter "n".toList
        "2024-05-06".toList ["x".toList] ++ "body".toList)).2)
      "2024-05-06".toList =
    parseEntries ((parseFrontmatter (buildFrontmatter "n".toList
        "2024-05-06".toList [] ++ "body".toList)).2) "2024-05-06".toList :=
  C5_frontmatter_ignored "n".toList "2024-05-06".toList "body".toList
    ["x".toList] [] (by decide) (by decide) (by decide) (by decide)
    (by decide) (by decide)

theorem C5_cex :
    loadDiary [(diaryPath ['d'] ⟨2024, 5, 6, 10, 0, 0⟩,
        buildFrontmatter "n".toList (formatDate ⟨2024, 5, 6, 10, 0, 0⟩)
            ["x".toList] ++
          entryBlock (formatHM ⟨2024, 5, 6, 10, 0, 0⟩) "hello".toList
            (some []))] ['d'] (formatDate ⟨2024, 5, 6, 10, 0, 0⟩) =
      some [⟨entryDtStr ⟨2024, 5, 6, 10, 0, 0⟩, "hello".toList, []⟩] ∧
    frontTags (buildFrontmatter "n".toList
        (formatDate ⟨2024, 5, 6, 10, 0, 0⟩) ["x".toList] ++
      entryBlock (formatHM ⟨2024, 5, 6, 10, 0, 0⟩) "hello".toList (some [])) =
      some ["x".toList] ∧
    entryMatchesFilter ⟨entryDtStr ⟨2024, 5, 6, 10, 0, 0⟩, "hello".toList, []⟩
      (dayStart ⟨2024, 5, 6, 10, 0, 0⟩) (dayEnd ⟨2024, 5, 6, 10, 0, 0⟩)
      none (some "x".toList) = false := by
  refine ⟨?_, ?_, by decide⟩
  · exact loadDiary_single ['d'] ⟨2024, 5, 6, 10, 0, 0⟩ "n".toList
      "hello".toList [] ["x".toList] (by decide) (by decide) (by decide)
      (by decide) (by decide) (by decide) (by decide) (by decide)
  · exact frontTags_built "n".toList (formatDate ⟨2024, 5, 6, 10, 0, 0⟩) _
      ["x".toList] (by decide) (by decide) (by decide) (by decide)

/-- C9: frame property of one append to an existing day file: the
rewritten file re-parses to exactly the prior entry sequence followed by
the one new entry. -/
theorem C9_frame (fs : FS) (dir : Str) (now dt : DateTime) (C c0 : Str)
    (T : List Str) (oldEntries : List Entry)
    (hread : fsRead fs (diaryPath dir dt) = some c0)
    (hold : parseEntries ((parseFrontmatter c0).2) (formatDate dt) =
      oldEntries)
    (hB : strip ((parseFrontmatter c0).2) = (parseFrontmatter c0).2)
    (hsafe : dashSafe (fmInner (formatFull now) (formatDate dt)
      (sortedSet (T ++ oldEntries.flatMap (·.tags)))) = true)
    (hTall : ∀ t ∈ sortedSet (T ++ oldEntries.flatMap (·.tags)),
      wfTag t = true)
    (hC1 : strip C = C) (hC2 : ∀ c ∈ C, c ≠ '#')
    (hC3 : ∀ l ∈ splitNL C, headerTime l = none)
    (hT : ∀ t ∈ T, wfTag t = true)
    (hne : C ≠ [] ∨ T ≠ []) :
    ∃ fs2, appendEntryToMarkdown fs dir now (formatDate dt) (formatHM dt) C
        (some T) = some fs2 ∧
      loadDiary fs2 dir (formatDate dt) =
        some (oldEntries ++ [⟨entryDtStr dt, C, T⟩]) := by
  refine ⟨_, appendEntryToMarkdown_existing fs dir now dt C c0 T hread, ?_⟩
  rw [hold]
  have h3 := loadDiary_written_at fs dir dt dt (formatFull now)
    ((parseFrontmatter c0).2) C T
    (sortedSet (T ++ oldEntries.flatMap (·.tags))) hsafe
    (formatFull_no_nl now) hTall hB hC1 hC2 hC3 hT hne
  rw [h3, hold]
  rfl

theorem C9_frame_witness :
    ∃ fs2, appendEntryToMarkdown
        [(diaryPath ['d'] ⟨2024, 5, 6, 10, 0, 0⟩,
          buildFrontmatter "n".toList (formatDate ⟨2024, 5, 6, 10, 0, 0⟩)
              ["old".toList] ++
            entryBlock (formatHM ⟨2024, 5, 6, 8, 0, 0⟩) "old entry".toList
              (some ["old".toList]))]
        ['d'] ⟨2024, 5, 6, 11, 0, 0⟩ (formatDate ⟨2024, 5, 6, 10, 0, 0⟩)
        (formatHM ⟨2024, 5, 6, 10, 0, 0⟩) "new entry".toList
        (some ["new".toList]) = some fs2 ∧
      loadDiary fs2 ['d'] (formatDate ⟨2024, 5, 6, 10, 0, 0⟩) =
        some ([⟨"2024-05-06 08:00:00".toList, "old entry".toList,
            ["old".toList]⟩] ++
          [⟨entryDtStr ⟨2024, 5, 6, 10, 0, 0⟩, "new entry".toList,
            ["new".toList]⟩]) :=
  C9_frame
    [(diaryPath ['d'] ⟨2024, 5, 6, 10, 0, 0⟩,
      buildFrontmatter "n".toList (formatDate ⟨2024, 5, 6, 10, 0, 0⟩)
          ["old".toList] ++
        entryBlock (formatHM ⟨2024, 5, 6, 8, 0, 0⟩) "old entry".toList
          (some ["old".toList]))]
    ['d'] ⟨2024, 5, 6, 11, 0, 0⟩ ⟨2024, 5, 6, 10, 0, 0⟩ "new entry".toList
    (buildFrontmatter "n".toList (formatDate ⟨2024, 5, 6, 10, 0, 0⟩)
        ["old".toList] ++
      entryBlock (formatHM ⟨2024, 5, 6, 8, 0, 0⟩) "old entry".toList
        (some ["old".toList]))
    ["new".toList]
    [⟨"2024-05-06 08:00:00".toList, "old entry".toList, ["old".toList]⟩]
    (by decide)
    (by
      rw [parseFrontmatter_full "n".toList
        (formatDate ⟨2024, 5, 6, 10, 0, 0⟩) _ ["old".toList]
        (by decide) (by decide) (by decide) (by decide)]
      dsimp only
      rw [parseEntries_block_at (formatDate ⟨2024, 5, 6, 10, 0, 0⟩)
        ⟨2024, 5, 6, 8, 0, 0⟩ "old entry".toList ["old".toList]
        (by decide) (by decide) (by decide) (by decide) (by decide)]
      rfl)
    (by
      rw [parseFrontmatter_full "n".toList
        (formatDate ⟨2024, 5, 6, 10, 0, 0⟩) _ ["old".toList]
        (by decide) (by decide) (by decide) (by decide)]
      dsimp only
      exact strip_idem _)
    (by decide) (by decide) (by decide) (by decide) (by decide) (by decide)
    (by decide)

end Diary
